import Mathlib

/-!
# Verification of the CoinMaster collector core
  (src/coinmaster_collector_ultimate.py)

Shallow embedding of the link validation and lifecycle pipeline:
URL normalization (`normalize`, built on the behaviour of CPython's
`urllib.parse.urlparse` / `urlunparse` / `parse_qsl` / `urlencode`),
candidate extraction (`Collector.scrape`), resolution outcome and gating
(`Collector.check_one`), and the SQLite-backed store (`DB.upsert_link`,
`DB.update_domain_trust`, `DB.cleanup`).

Strings are modelled as `List Char` internally (`Str`), with `String`
wrappers at the API.  Python's `urllib` stdlib behaviour is modelled to the
letter of CPython 3.11.6 (the `python3` this script would run under here);
the known deliberate simplifications, each noted at its definition site,
are: ASCII-only case folding for `str.lower()`, omission of the NFKC
confusable check `_checknetloc` for non-ASCII authorities, best-effort
replacement granularity of the UTF-8 `errors:replace` decoder on invalid
byte sequences (valid sequences decode exactly), and elision of the
interpolated parts of error message strings.
-/

set_option maxHeartbeats 1000000

namespace CM

abbrev Str := List Char

/-! ## ASCII character classes (urllib's sets are ASCII by definition) -/

/-- ASCII digit `0`-`9`. -/
def isAsciiDigitC (c : Char) : Bool := decide (48 ≤ c.toNat ∧ c.toNat ≤ 57)

/-- ASCII letter `A`-`Z` or `a`-`z` (CPython checks `isascii() and isalpha()`). -/
def isAsciiAlphaC (c : Char) : Bool :=
  decide ((65 ≤ c.toNat ∧ c.toNat ≤ 90) ∨ (97 ≤ c.toNat ∧ c.toNat ≤ 122))

/-- ASCII case folding: models `str.lower()` on the ASCII range.
CPython's `str.lower` is Unicode-aware; the ASCII fold models the hosts and
schemes this program handles.  It is idempotent, as the Unicode fold is. -/
def lowerC (c : Char) : Char :=
  if 65 ≤ c.toNat ∧ c.toNat ≤ 90 then Char.ofNat (c.toNat + 32) else c

/-- `urllib.parse.scheme_chars`: letters, digits, `+`, `-`, `.`. -/
def schemeCharC (c : Char) : Bool :=
  isAsciiAlphaC c || isAsciiDigitC c || c == '+' || c == '-' || c == '.'

/-- `urllib.parse._ALWAYS_SAFE` with `safe=""` (as `urlencode` passes):
ASCII letters, digits, `_`, `.`, `-`, `~`. -/
def alwaysSafeC (c : Char) : Bool :=
  isAsciiAlphaC c || isAsciiDigitC c || c == '_' || c == '.' || c == '-' || c == '~'

/-- Not one of `_UNSAFE_URL_BYTES_TO_REMOVE` (tab, CR, LF). -/
def cleanCharC (c : Char) : Bool := !(c == '\t' || c == '\r' || c == '\n')

/-- Character with no role in any URL component split:  used to state
facts about re-parsing. -/
def headAlpha : Str → Bool
  | [] => false
  | c :: _ => isAsciiAlphaC c

/-! ## List utilities (own definitions, to control the equations) -/

/-- `concatMap f l = (l.map f).join`. -/
def concatMap (f : α → List β) : List α → List β
  | [] => []
  | a :: l => f a ++ concatMap f l

/-- Longest prefix whose characters satisfy `p`, paired with the rest. -/
def spanP (p : Char → Bool) : Str → Str × Str
  | [] => ([], [])
  | c :: rest =>
    if p c then
      let r := spanP p rest
      (c :: r.1, r.2)
    else ([], c :: rest)

/-- Python `str.split(sep)` (single-character separator):
`splitAll sep "" = [""]`, separators delimit possibly-empty pieces. -/
def splitAll (sep : Char) : Str → List Str
  | [] => [[]]
  | c :: rest =>
    match splitAll sep rest with
    | [] => [[c]]
    | h :: t => if c == sep then [] :: h :: t else (c :: h) :: t

/-- Split at the last occurrence of `c`:  `some (a, b)` with
`s = a ++ c :: b` and `c ∉ b`, or `none` when `c ∉ s`.
Models Python's `rfind`-based splitting. -/
def splitLast (c : Char) (s : Str) : Option (Str × Str) :=
  match spanP (fun x => !(x == c)) s.reverse with
  | (_, []) => none
  | (bRev, _ :: aRev) => some (aRev.reverse, bRev.reverse)

/-- `"&".join` for `urlencode`. -/
def intercalateAmp : List Str → Str
  | [] => []
  | [x] => x
  | x :: y :: xs => x ++ '&' :: intercalateAmp (y :: xs)

/-- Strict lexicographic order on codepoints.  SQLite compares TEXT columns
with `memcmp` on the UTF-8 bytes; UTF-8 preserves codepoint order, so this
is exactly the `first_seen < cutoff` comparison `DB.cleanup` issues. -/
def lexLt : Str → Str → Bool
  | [], [] => false
  | [], _ :: _ => true
  | _ :: _, [] => false
  | a :: as, b :: bs =>
    if a.toNat < b.toNat then true
    else if a.toNat = b.toNat then lexLt as bs
    else false

/-- Contiguous-substring test (`pat in s` for Python strings; the reward
patterns are literal, so `re.search` is substring search too). -/
def containsSub (pat : Str) : Str → Bool
  | [] => pat.isEmpty
  | c :: t => pat.isPrefixOf (c :: t) || containsSub pat t

/-! ## Percent-encoding layer: `quote_plus` / `unquote`
(`urllib.parse`, called by `urlencode` with `safe=""` and by `parse_qsl`). -/

/-- Uppercase hex digit of a nibble (`urllib` emits uppercase). -/
def hexDigitUpper (n : Nat) : Char :=
  if n < 10 then Char.ofNat (48 + n) else Char.ofNat (55 + n)

/-- `%XX` encoding of one byte. -/
def percEnc (b : Nat) : Str := ['%', hexDigitUpper (b / 16), hexDigitUpper (b % 16)]

/-- UTF-8 encoding of a unicode scalar value, as a list of bytes. -/
def utf8Enc (n : Nat) : List Nat :=
  if n < 128 then [n]
  else if n < 2048 then [192 + n / 64, 128 + n % 64]
  else if n < 65536 then [224 + n / 4096, 128 + (n / 64) % 64, 128 + n % 64]
  else [240 + n / 262144, 128 + (n / 4096) % 64, 128 + (n / 64) % 64, 128 + n % 64]

/-- One character under `quote(s, safe="")`: safe characters pass through,
everything else is `%XX`-encoded per UTF-8 byte. -/
def quoteChar (c : Char) : Str :=
  if alwaysSafeC c then [c] else concatMap percEnc (utf8Enc c.toNat)

/-- One character under `quote_plus(s, safe="")`: like `quoteChar` but
space becomes `+`.  (CPython routes spaces through `quote(s, safe + " ")`
then replaces; character-wise this is the same function.) -/
def quotePlusC (c : Char) : Str := if c == ' ' then ['+'] else quoteChar c

/-- `quote_plus(s)` with `safe=""`, as `urlencode` applies it. -/
def quotePlus (s : Str) : Str := concatMap quotePlusC s

/-- Value of a hex digit, either case (`_hextobyte` admits both). -/
def hexVal? (c : Char) : Option Nat :=
  if 48 ≤ c.toNat ∧ c.toNat ≤ 57 then some (c.toNat - 48)
  else if 65 ≤ c.toNat ∧ c.toNat ≤ 70 then some (c.toNat - 55)
  else if 97 ≤ c.toNat ∧ c.toNat ≤ 102 then some (c.toNat - 87)
  else none

/-- One literal character as an `unquote` unit: a `%` not opening a valid
escape stays as the literal byte 37; ASCII characters become their byte;
non-ASCII characters pass through. -/
def unitOf (c : Char) : Sum Nat Char :=
  if c.toNat < 128 then Sum.inl c.toNat else Sum.inr c

/-- Tokenize for `unquote`: percent-escapes and literal ASCII characters
become bytes (`Sum.inl`), non-ASCII characters pass through (`Sum.inr`) —
CPython splits the string into ASCII runs and only percent-decodes those.
Direct recursion extensionally equal to `unquote_to_bytes`'s `%`-split:
a `%` not followed by two hex digits stays literal. -/
def unqUnits : Str → List (Sum Nat Char)
  | [] => []
  | [c] => [unitOf c]
  | [c, c1] => unitOf c :: unqUnits [c1]
  | c :: c1 :: c2 :: rest2 =>
    if c == '%' then
      match hexVal? c1, hexVal? c2 with
      | some h1, some h2 => Sum.inl (16 * h1 + h2) :: unqUnits rest2
      | _, _ => Sum.inl 37 :: unqUnits (c1 :: c2 :: rest2)
    else unitOf c :: unqUnits (c1 :: c2 :: rest2)

/-- Is a UTF-8 continuation byte. -/
def contB (b : Nat) : Bool := decide (128 ≤ b ∧ b < 192)

/-- Scalar value of a two-byte UTF-8 sequence. -/
def dec2val (b b2 : Nat) : Nat := (b - 192) * 64 + (b2 - 128)

/-- Scalar value of a three-byte UTF-8 sequence. -/
def dec3val (b b2 b3 : Nat) : Nat := (b - 224) * 4096 + (b2 - 128) * 64 + (b3 - 128)

/-- Scalar value of a four-byte UTF-8 sequence. -/
def dec4val (b b2 b3 b4 : Nat) : Nat :=
  (b - 240) * 262144 + (b2 - 128) * 4096 + (b3 - 128) * 64 + (b4 - 128)

/-- Two-byte decode result with the overlong check. -/
def rep2 (b b2 : Nat) : Nat := if dec2val b b2 < 128 then 65533 else dec2val b b2

/-- Three-byte decode result with the overlong and surrogate checks. -/
def rep3 (b b2 b3 : Nat) : Nat :=
  if dec3val b b2 b3 < 2048 ∨ (55296 ≤ dec3val b b2 b3 ∧ dec3val b b2 b3 ≤ 57343)
  then 65533 else dec3val b b2 b3

/-- Four-byte decode result with the overlong and range checks. -/
def rep4 (b b2 b3 b4 : Nat) : Nat :=
  if dec4val b b2 b3 b4 < 65536 ∨ 1114112 ≤ dec4val b b2 b3 b4
  then 65533 else dec4val b b2 b3 b4

/-- UTF-8 decoding with `errors="replace"` (U+FFFD = 65533 for invalid
sequences; valid sequences, including the overlong/surrogate/range checks,
decode exactly; the number of replacement characters emitted for an
invalid sequence is best-effort rather than CPython's maximal-subpart
count, which only differs on invalid inputs). -/
def utf8Dec : List Nat → List Nat
  | [] => []
  | [b] => if b < 128 then [b] else [65533]
  | [b, b2] =>
    if b < 128 then b :: utf8Dec [b2]
    else if b < 192 then 65533 :: utf8Dec [b2]
    else if b < 224 then
      (if contB b2 then [rep2 b b2] else 65533 :: utf8Dec [b2])
    else 65533 :: utf8Dec [b2]
  | [b, b2, b3] =>
    if b < 128 then b :: utf8Dec [b2, b3]
    else if b < 192 then 65533 :: utf8Dec [b2, b3]
    else if b < 224 then
      (if contB b2 then rep2 b b2 :: utf8Dec [b3] else 65533 :: utf8Dec [b2, b3])
    else if b < 240 then
      (if contB b2 && contB b3 then [rep3 b b2 b3] else 65533 :: utf8Dec [b2, b3])
    else 65533 :: utf8Dec [b2, b3]
  | b :: b2 :: b3 :: b4 :: rest4 =>
    if b < 128 then b :: utf8Dec (b2 :: b3 :: b4 :: rest4)
    else if b < 192 then 65533 :: utf8Dec (b2 :: b3 :: b4 :: rest4)
    else if b < 224 then
      (if contB b2 then rep2 b b2 :: utf8Dec (b3 :: b4 :: rest4)
       else 65533 :: utf8Dec (b2 :: b3 :: b4 :: rest4))
    else if b < 240 then
      (if contB b2 && contB b3 then rep3 b b2 b3 :: utf8Dec (b4 :: rest4)
       else 65533 :: utf8Dec (b2 :: b3 :: b4 :: rest4))
    else
      (if contB b2 && contB b3 && contB b4 then rep4 b b2 b3 b4 :: utf8Dec rest4
       else 65533 :: utf8Dec (b2 :: b3 :: b4 :: rest4))

/-- Codepoints to characters (every value `utf8Dec` emits is a valid
scalar, by the range checks above). -/
def utf8Chars (ns : List Nat) : Str := ns.map Char.ofNat

/-- Collapse the unit stream: maximal byte runs are UTF-8-decoded as one
unit (as CPython decodes each ASCII run's bytes together), pass-through
characters are kept. -/
def decodeUnits : List (Sum Nat Char) → List Nat → Str
  | [], acc => utf8Chars (utf8Dec acc.reverse)
  | Sum.inl b :: rest, acc => decodeUnits rest (b :: acc)
  | Sum.inr c :: rest, acc => utf8Chars (utf8Dec acc.reverse) ++ c :: decodeUnits rest []

/-- `urllib.parse.unquote` with UTF-8 / `errors="replace"`. -/
def unquoteL (s : Str) : Str := decodeUnits (unqUnits s) []

/-- `str.replace("+", " ")`, as `parse_qsl` applies before unquoting. -/
def plusToSpace (s : Str) : Str := s.map (fun c => if c == '+' then ' ' else c)

/-- `unquote_plus`: `+` to space, then `unquote`. -/
def unquotePlus (s : Str) : Str := unquoteL (plusToSpace s)

/-! ## `parse_qsl` / `urlencode` (defaults the program uses:
`keep_blank_values=False`, `strict_parsing=False`, separator `&`,
`quote_via=quote_plus`, `safe=""`). -/

/-- One `name=value` piece of a query string under `parse_qsl`'s loop:
empty pieces, pieces without `=` and pieces with a blank value are
dropped; name and value are `+`-replaced and unquoted. -/
def parsePiece (piece : Str) : Option (Str × Str) :=
  if piece = [] then none
  else
    match spanP (fun c => !(c == '=')) piece with
    | (_, []) => none
    | (nm, _ :: v) => if v = [] then none else some (unquotePlus nm, unquotePlus v)

/-- `urllib.parse.parse_qsl`. -/
def parseQsl (q : Str) : List (Str × Str) := (splitAll '&' q).filterMap parsePiece

/-- `urllib.parse.urlencode` on string pairs. -/
def urlencodeL (qs : List (Str × Str)) : Str :=
  intercalateAmp (qs.map (fun kv => quotePlus kv.1 ++ '=' :: quotePlus kv.2))

/-! ## `urlparse` / `urlunparse` (CPython 3.10 semantics) -/

/-- Result of `urlparse`. -/
structure UrlParts where
  scheme : Str
  netloc : Str
  path : Str
  params : Str
  query : Str
  fragment : Str
deriving DecidableEq

/-- `urlsplit` first lstrips WHATWG C0-control-or-space characters
(left only — trailing space is deliberately preserved by CPython). -/
def lstripC0 (s : Str) : Str := s.dropWhile (fun c => c.toNat ≤ 32)

/-- ... then removes every tab, CR and LF. -/
def removeUnsafe (s : Str) : Str := s.filter cleanCharC

def preClean (s : Str) : Str := removeUnsafe (lstripC0 s)

/-- Scheme split: chars before the first `:` must start with an ASCII
letter and all lie in `scheme_chars`; the scheme is lowercased. -/
def splitScheme (s : Str) : Str × Str :=
  match spanP (fun c => !(c == ':')) s with
  | (_, []) => ([], s)
  | (pre, _ :: rest) =>
    if headAlpha pre && pre.all schemeCharC then (pre.map lowerC, rest) else ([], s)

/-- Netloc delimiter set of `_splitnetloc`. -/
def netlocDelim (c : Char) : Bool := c == '/' || c == '?' || c == '#'

/-- The `Invalid IPv6 URL` condition: `[` without `]` or vice versa. -/
def bracketMismatch (nl : Str) : Bool := nl.contains '[' != nl.contains ']'

def ipv6ErrorMsg : String := "Invalid IPv6 URL"

def ipvFutureErrorMsg : String := "IPvFuture address is invalid"

def ipv4BracketErrorMsg : String := "An IPv4 address cannot be in brackets"

def notIpErrorMsg : String := "does not appear to be an IPv4 or IPv6 address"

/-- ASCII hex digit (`ipaddress._BaseV6._HEX_DIGITS`). -/
def isHexDigitC (c : Char) : Bool :=
  isAsciiDigitC c || decide (65 ≤ c.toNat ∧ c.toNat ≤ 70)
    || decide (97 ≤ c.toNat ∧ c.toNat ≤ 102)

/-- `_parse_hextet` accepts: 1–4 hex digits. -/
def hextetOK (s : Str) : Bool :=
  s.all isHexDigitC && decide (s.length ≤ 4) && !s.isEmpty

/-- Decimal value of a digit string. -/
def decVal (s : Str) : Nat := s.foldl (fun a c => a * 10 + (c.toNat - 48)) 0

/-- `ipaddress._BaseV4._parse_octet` accepts: 1–3 ASCII decimal digits,
no leading zero (except `0` itself), value at most 255. -/
def octetOK (s : Str) : Bool :=
  !s.isEmpty && s.all isAsciiDigitC && decide (s.length ≤ 3)
    && !(decide (s ≠ ['0']) && s.headD ' ' == '0') && decide (decVal s ≤ 255)

/-- `IPv4Address(str)` acceptance: no `/`, exactly four valid octets. -/
def isIPv4Text (s : Str) : Bool :=
  !s.contains '/' && !s.isEmpty
    && (let octs := splitAll '.' s
        octs.length == 4 && octs.all octetOK)

/-- First index holding an empty string, if any. -/
def idxOfEmpty : List Str → Option Nat
  | [] => none
  | p :: rest => if p.isEmpty then some 0 else (idxOfEmpty rest).map (· + 1)

/-- The accept condition of `IPv6Address._ip_int_from_string` on the
colon-split parts (after the IPv4-suffix conversion):  at most 9 parts,
at most one empty inner part (the `::`), endpoint emptiness only adjacent
to the `::`, at least one zero-group skipped, all retained parts valid
hextets. -/
def v6PartsOK (parts : List Str) : Bool :=
  decide (parts.length ≤ 9) &&
  (let inner := (parts.drop 1).dropLast
   match idxOfEmpty inner with
   | none =>
     parts.length == 8 && !(parts.headD []).isEmpty
       && !(parts.getLastD []).isEmpty && parts.all hextetOK
   | some j =>
     ((inner.drop (j + 1)).countP (fun p => p.isEmpty) == 0) &&
     (let skip := j + 1
      let hi := if (parts.headD []).isEmpty then 0 else skip
      let lo0 := parts.length - skip - 1
      let lo := if (parts.getLastD []).isEmpty then lo0 - 1 else lo0
      (!(parts.headD []).isEmpty || skip == 1)
        && (!(parts.getLastD []).isEmpty || lo0 ≤ 1)
        && decide (hi + lo ≤ 7)
        && (parts.take hi).all hextetOK
        && (parts.drop (parts.length - lo)).all hextetOK))

/-- `IPv6Address._ip_int_from_string` acceptance (scope id already
split off):  nonempty, at least two colons, optional dotted IPv4 suffix
(converted to two always-valid hextets, here placeholders `0`,`0`), then
the parts condition. -/
def isIPv6Addr (addr : Str) : Bool :=
  !addr.isEmpty &&
  (let parts0 := splitAll ':' addr
   decide (3 ≤ parts0.length) &&
   (let lastPart := parts0.getLastD []
    if lastPart.contains '.' then
      isIPv4Text lastPart && v6PartsOK (parts0.dropLast ++ [['0'], ['0']])
    else v6PartsOK parts0))

/-- `IPv6Address(str)` acceptance: no `/`, optional nonempty `%`-scope id
(itself free of `%`), and a valid address part. -/
def isIPv6Text (s : Str) : Bool :=
  !s.contains '/' &&
  (match spanP (fun c => !(c == '%')) s with
   | (addr, []) => isIPv6Addr addr
   | (addr, _ :: scope) => !scope.isEmpty && !scope.contains '%' && isIPv6Addr addr)

/-- `re.match(r"\Av[a-fA-F0-9]+\..+\Z", h)`: `v`, one or more hex digits,
a dot, then one or more non-newline characters. -/
def ipvFutureOK (h : Str) : Bool :=
  match h with
  | [] => false
  | c :: rest =>
    c == 'v' &&
    (let hx := spanP isHexDigitC rest
     !hx.1.isEmpty &&
     (match hx.2 with
      | d :: tail => d == '.' && !tail.isEmpty && !tail.contains '\n'
      | [] => false))

/-- `str.partition(sep)[2]`. -/
def afterFirst (sep : Char) (s : Str) : Str :=
  match spanP (fun c => !(c == sep)) s with
  | (_, []) => []
  | (_, _ :: r) => r

/-- `str.partition(sep)[0]`. -/
def upToFirst (sep : Char) (s : Str) : Str := (spanP (fun c => !(c == sep)) s).1

/-- `netloc.partition('[')[2].partition(']')[0]`. -/
def bracketedHostOf (nl : Str) : Str := upToFirst ']' (afterFirst '[' nl)

/-- `urllib.parse._check_bracketed_host` (3.11): hosts starting with `v`
must be IPvFuture; anything else must be an IPv6 (not IPv4) address.
Returns the raised message, or `none` on acceptance. -/
def checkBracketedHost (h : Str) : Option String :=
  if h.headD ' ' == 'v' then
    if ipvFutureOK h then none else some ipvFutureErrorMsg
  else if isIPv4Text h then some ipv4BracketErrorMsg
  else if isIPv6Text h then none
  else some notIpErrorMsg

/-- Netloc split with CPython 3.11.6's validation: the IPv6 bracket
mismatch check, then for bracketed hosts `_check_bracketed_host`; each
raises `ValueError`.  (The `_checknetloc` NFKC confusable check for
non-ASCII authorities is not modelled.) -/
def splitNetloc (s : Str) : Except String (Str × Str) :=
  if s.take 2 = ['/', '/'] then
    match spanP (fun c => !netlocDelim c) (s.drop 2) with
    | (nl, rest) =>
      if bracketMismatch nl then .error ipv6ErrorMsg
      else if nl.contains '[' && nl.contains ']' then
        match checkBracketedHost (bracketedHostOf nl) with
        | some e => .error e
        | none => .ok (nl, rest)
      else .ok (nl, rest)
  else .ok ([], s)

/-- Split at the first occurrence of `sep` (absent: whole string, empty
rest) — the fragment and query splits of `urlsplit`. -/
def splitFirst (sep : Char) (s : Str) : Str × Str :=
  match spanP (fun c => !(c == sep)) s with
  | (a, []) => (a, [])
  | (a, _ :: rest) => (a, rest)

/-- `_splitparams`: parameters start at the first `;` after the last `/`
(or the first `;` at all when there is no `/`). -/
def splitParamsL (u : Str) : Str × Str :=
  match splitLast '/' u with
  | some (a, b) =>
    match spanP (fun c => !(c == ';')) b with
    | (_, []) => (u, [])
    | (b1, _ :: rest) => (a ++ '/' :: b1, rest)
  | none =>
    match spanP (fun c => !(c == ';')) u with
    | (_, []) => (u, [])
    | (u1, _ :: rest) => (u1, rest)

/-- `urllib.parse.uses_params` (3.11.6). -/
def uses_params : List Str :=
  ["".data, "ftp".data, "hdl".data, "prospero".data, "http".data, "imap".data,
   "https".data, "shttp".data, "rtsp".data, "rtsps".data, "rtspu".data,
   "sip".data, "sips".data, "mms".data, "sftp".data, "tel".data]

/-- `urllib.parse.uses_netloc` (3.11.6). -/
def uses_netloc : List Str :=
  ["".data, "ftp".data, "http".data, "gopher".data, "nntp".data, "telnet".data,
   "imap".data, "wais".data, "file".data, "mms".data, "https".data, "shttp".data,
   "snews".data, "prospero".data, "rtsp".data, "rtsps".data, "rtspu".data,
   "rsync".data, "svn".data, "svn+ssh".data, "sftp".data, "nfs".data,
   "git".data, "git+ssh".data, "ws".data, "wss".data]

/-- `urllib.parse.urlparse` (= `urlsplit` + params split, the latter only
for schemes in `uses_params`).  The failures are `urlsplit`'s
`ValueError`s on invalid authorities. -/
def urlparseL (u : Str) : Except String UrlParts :=
  let u1 := preClean u
  let sr := splitScheme u1
  match splitNetloc sr.2 with
  | .error e => .error e
  | .ok (netloc, r2) =>
    let fr := splitFirst '#' r2
    let qr := splitFirst '?' fr.1
    let pp := if uses_params.contains sr.1 ∧ ';' ∈ qr.1 then splitParamsL qr.1
      else (qr.1, [])
    .ok ⟨sr.1, netloc, pp.1, pp.2, qr.2, fr.2⟩

/-- `urlunsplit` (3.11.6): the `//` marker is emitted when there is a
netloc, or when the scheme is one that uses a netloc and the path does
not itself begin with `//`. -/
def urlunsplitL (scheme netloc path query fragment : Str) : Str :=
  let url := if netloc ≠ [] ∨ (scheme ≠ [] ∧ uses_netloc.contains scheme
        ∧ path.take 2 ≠ ['/', '/']) then
      ('/' :: '/' :: netloc) ++ (if path ≠ [] ∧ path.head? ≠ some '/' then '/' :: path else path)
    else path
  let url := if scheme ≠ [] then scheme ++ ':' :: url else url
  let url := if query ≠ [] then url ++ '?' :: query else url
  if fragment ≠ [] then url ++ '#' :: fragment else url

/-- `urlunparse`. -/
def urlunparseL (scheme netloc path params query fragment : Str) : Str :=
  urlunsplitL scheme netloc (if params ≠ [] then path ++ ';' :: params else path) query fragment

/-! ## The program's configuration constants (CONFIG section) -/

def MAX_WORKERS : Nat := 8
def TIMEOUT : Nat := 8
def MAX_AGE_HOURS : Nat := 72
def SCORE_THRESHOLD : Nat := 4
def ALLOWED_FINAL_DOMAIN : String := "static.moonactive.net"

def TRACKING_PARAMS : List Str :=
  ["utm_source".data, "utm_medium".data, "utm_campaign".data,
   "fbclid".data, "gclid".data, "ref".data]

def BLACKLIST_DOMAINS : List String :=
  ["facebook.com", "twitter.com", "instagram.com", "youtube.com",
   "coinmastergame.com", "apps.apple.com", "play.google.com"]

def FOOTER_KEYWORDS : List String :=
  ["privacy", "imprint", "terms", "contact", "about", "cookie", "site-notice"]

def REWARD_PATTERNS : List String :=
  ["free spins", "free coins", "coin master", "claim", "reward", "spin"]

/-! ## `normalize` (HELPERS section) -/

/-- `normalize(url)`:
parse, drop tracking query parameters, default scheme to `https`,
lowercase the host, default path to `/`, drop params and fragment,
re-serialize.  Raises (`Except.error`) exactly when `urlparse` does. -/
def normalizeL (u : Str) : Except String Str :=
  match urlparseL u with
  | .error e => .error e
  | .ok p =>
    let qs := (parseQsl p.query).filter (fun kv => !(TRACKING_PARAMS.contains kv.1))
    let scheme := if p.scheme = [] then "https".data else p.scheme
    let netloc := p.netloc.map lowerC
    let path := if p.path = [] then ['/'] else p.path
    .ok (urlunparseL scheme netloc path [] (urlencodeL qs) [])

/-- Equality on `Except` results is decidable (needed to evaluate the
model on concrete inputs). -/
instance [DecidableEq ε] [DecidableEq α] : DecidableEq (Except ε α) := fun x y =>
  match x, y with
  | .ok a, .ok b =>
    if h : a = b then isTrue (by rw [h])
    else isFalse (fun hc => h (Except.ok.inj hc))
  | .error a, .error b =>
    if h : a = b then isTrue (by rw [h])
    else isFalse (fun hc => h (Except.error.inj hc))
  | .ok _, .error _ => isFalse (fun hc => Except.noConfusion hc)
  | .error _, .ok _ => isFalse (fun hc => Except.noConfusion hc)

/-- `normalize` at the `String` API. -/
def normalize (u : String) : Except String String :=
  match normalizeL u.data with
  | .error e => .error e
  | .ok v => .ok (String.mk v)

/-- The authority substring `urlparse` would validate for `u` — used to
characterize exactly when `normalize` raises. -/
def netlocCandidate (u : Str) : Str :=
  let rest := (splitScheme (preClean u)).2
  if rest.take 2 = ['/', '/'] then (spanP (fun c => !netlocDelim c) (rest.drop 2)).1
  else []

/-- `domain_of(url)`: netloc lowercased; any parse exception yields `""`. -/
def domainOf (url : String) : String :=
  match urlparseL url.data with
  | .ok p => String.mk (p.netloc.map lowerC)
  | .error _ => ""

/-- `is_reward_text(blob)`: the reward patterns are literal strings, so
`re.search` is substring search on the lowercased blob.  (`str.lower`
modelled on the ASCII range.) -/
def isRewardText (blob : String) : Bool :=
  REWARD_PATTERNS.any (fun p => containsSub p.data (blob.data.map lowerC))

/-! ## Store (class DB, SQLite-backed) -/

/-- One row of the `links` table (`url` is the primary key).
Timestamps are ISO-8601 TEXT, compared by SQLite with `memcmp` (`lexLt`). -/
structure LinkRow where
  url : String
  source : String
  domain : String
  first_seen : String
  last_checked : String
  final_url : String
  final_domain : String
  valid : Bool
  score : Nat
  title : String
deriving DecidableEq

/-- The two mutable tables the collector writes (`runs` is append-only
bookkeeping and not involved in any claim's predicate).  `links` and
`domains` are keyed lists; the primary keys make the key sets unique. -/
structure DBState where
  links : List LinkRow
  domains : List (String × Int)
deriving DecidableEq

/-- `DB.upsert_link`: `INSERT ... ON CONFLICT(url) DO UPDATE SET
last_checked, final_url, final_domain, valid, score, title` — on conflict
the stored `url`, `source`, `domain` and `first_seen` are left untouched. -/
def upsertLink (links : List LinkRow) (row : LinkRow) : List LinkRow :=
  if links.any (fun r => r.url == row.url) then
    links.map (fun r =>
      if r.url == row.url then
        { r with last_checked := row.last_checked, final_url := row.final_url,
                 final_domain := row.final_domain, valid := row.valid,
                 score := row.score, title := row.title }
      else r)
  else links ++ [row]

/-- Row lookup by primary key. -/
def findRow (links : List LinkRow) (u : String) : Option LinkRow :=
  links.find? (fun r => r.url == u)

/-- `DB.update_domain_trust`: `SELECT trust` (0 when the row is absent),
add `delta`, `INSERT OR REPLACE`. -/
def updateDomainTrust (doms : List (String × Int)) (d : String) (delta : Int) :
    List (String × Int) :=
  let old := ((doms.find? (fun p => p.1 == d)).map (fun p => p.2)).getD 0
  if doms.any (fun p => p.1 == d) then
    doms.map (fun p => if p.1 == d then (d, old + delta) else p)
  else doms ++ [(d, old + delta)]

/-- Current trust of a domain as the reader sees it (0 when absent). -/
def trustOf (doms : List (String × Int)) (d : String) : Int :=
  ((doms.find? (fun p => p.1 == d)).map (fun p => p.2)).getD 0

/-- The `DELETE`/count predicate of `DB.cleanup`:
`first_seen < cutoff OR valid = 0`, where
`cutoff = (utcnow() - timedelta(hours=MAX_AGE_HOURS)).isoformat()`. -/
def cleanupMatch (cutoff : String) (r : LinkRow) : Bool :=
  lexLt r.first_seen.data cutoff.data || r.valid == false

/-- `DB.cleanup(dry)`: dry mode returns `SELECT count(*)` of the matching
set and touches nothing; live mode deletes the matching set and — as the
Python function has no `return` on that path — returns `None` (`none`). -/
def cleanup (links : List LinkRow) (cutoff : String) (dry : Bool) :
    Option Nat × List LinkRow :=
  if dry then (some (links.countP (cleanupMatch cutoff)), links)
  else (none, links.filter (fun r => !cleanupMatch cutoff r))

/-! ## Resolver + Gate + persistence (Collector.check_one) -/

/-- What one `self.s.get(url, ...)` returns when no exception is raised.
`parsedTitle` models `soup.title.string` (`none`: no title element or the
title parse failed). -/
structure FetchResult where
  status : Nat
  finalUrl : String
  contentType : String
  text : String
  parsedTitle : Option String
deriving DecidableEq

/-- Title extraction of `check_one`: only for textual content with a
nonempty body; a missing title or parse failure yields `""`; the title is
stripped (`String.trim` for Python `str.strip()`). -/
def fetchTitle (r : FetchResult) : String :=
  if containsSub "text".data r.contentType.data && !(r.text == "") then
    match r.parsedTitle with
    | some t => t.trim
    | none => ""
  else ""

/-- The Gate (line `valid = (status == 200 and score >= SCORE_THRESHOLD
and allowed)`): a pure function of the (status, score, finalDomain)
triple. -/
def gate (status : Nat) (score : Nat) (finalDomain : String) : Bool :=
  status == 200 && decide (SCORE_THRESHOLD ≤ score) && finalDomain == ALLOWED_FINAL_DOMAIN

/-- Resolution outcome of one candidate (the try/except of `check_one`):
`fetch = none` models any exception from the network fetch. -/
structure Outcome where
  status : Option Nat
  final_url : String
  final_domain : String
  title : String
  score : Nat
  valid : Bool
deriving DecidableEq

def resolveOutcome (url anchor : String) (fetch : Option FetchResult) : Outcome :=
  match fetch with
  | some r =>
    let finalDom := domainOf r.finalUrl
    let title := fetchTitle r
    let combined := r.finalUrl ++ " " ++ title ++ " " ++ anchor
    let score := if isRewardText combined then 5 else 0
    { status := some r.status, final_url := r.finalUrl, final_domain := finalDom,
      title := title, score := score, valid := gate r.status score finalDom }
  | none =>
    { status := none, final_url := url, final_domain := domainOf url,
      title := "", score := 0, valid := false }

/-- The `row` dict `check_one` builds (both timestamps are `utcnow()`,
passed in as `now`). -/
def mkRow (url src now : String) (o : Outcome) : LinkRow :=
  { url := url, source := src, domain := domainOf url,
    first_seen := now, last_checked := now,
    final_url := o.final_url, final_domain := o.final_domain,
    valid := o.valid, score := o.score, title := o.title }

/-- `Collector.check_one` on the store:  build the row, then in live mode
either upsert + trust `+1` (accepted) or trust `-1` (rejected); dry mode
touches nothing.  Returns the updated store and the `valid` flag the
method returns. -/
def check_one (dry : Bool) (now : String) (st : DBState)
    (url src anchor : String) (fetch : Option FetchResult) : DBState × Bool :=
  let o := resolveOutcome url anchor fetch
  let row : LinkRow := mkRow url src now o
  if !dry && o.valid then
    ({ links := upsertLink st.links row,
       domains := updateDomainTrust st.domains row.domain 1 }, o.valid)
  else if !dry then
    ({ st with domains := updateDomainTrust st.domains row.domain (-1) }, o.valid)
  else (st, o.valid)

/-! ## Candidate extraction (Collector.scrape) -/

/-- The per-anchor filter chain of `scrape` over one source page's
anchors (`href`, anchor text): keep absolute http(s) targets, normalize,
drop blacklisted hosts, drop footer-keyword URLs, keep reward-looking
text.  `normalize` can raise, which would propagate out of `scrape`
(modelled by the `Except`). -/
def scrapeAnchors (srcName : String) : List (String × String) →
    Except String (List (String × String × String))
  | [] => .ok []
  | (href, text) :: rest =>
    if !("http".data.isPrefixOf href.data) then scrapeAnchors srcName rest
    else
      match normalize href with
      | .error e => .error e
      | .ok hrefN =>
        let d := domainOf hrefN
        if BLACKLIST_DOMAINS.contains d then scrapeAnchors srcName rest
        else if FOOTER_KEYWORDS.any
            (fun k => containsSub k.data (hrefN.data.map lowerC)) then
          scrapeAnchors srcName rest
        else if !isRewardText (hrefN ++ " " ++ text) then scrapeAnchors srcName rest
        else
          match scrapeAnchors srcName rest with
          | .error e => .error e
          | .ok cs => .ok ((hrefN, srcName, text) :: cs)

/-- `Collector.scrape` over the configured sources:  a failed source
fetch (`none`) is logged and skipped; candidates accumulate in order. -/
def scrape : List (String × Option (List (String × String))) →
    Except String (List (String × String × String))
  | [] => .ok []
  | (_, none) :: rest => scrape rest
  | (name, some anchors) :: rest =>
    match scrapeAnchors name anchors with
    | .error e => .error e
    | .ok cs =>
      match scrape rest with
      | .error e => .error e
      | .ok more => .ok (cs ++ more)

/-! # Theorems -/

/-! ## Character-level bridge lemmas -/

theorem charToNat_valid (c : Char) : Nat.isValidChar c.toNat := c.valid

theorem charToNat_ofNat {n : Nat} (h : Nat.isValidChar n) : (Char.ofNat n).toNat = n := by
  simp only [Char.ofNat, h, dif_pos, Char.ofNatAux, Char.toNat]
  simp [UInt32.toNat, BitVec.toNat_ofNatLt]

theorem charToNat_injEq {a b : Char} (h : a.toNat = b.toNat) : a = b := by
  apply Char.ext
  exact UInt32.toNat.inj h

theorem charOfNat_toNat (c : Char) : Char.ofNat c.toNat = c :=
  charToNat_injEq (charToNat_ofNat (charToNat_valid c))

theorem lowerC_toNat (c : Char) :
    (lowerC c).toNat = if 65 ≤ c.toNat ∧ c.toNat ≤ 90 then c.toNat + 32 else c.toNat := by
  by_cases h : 65 ≤ c.toNat ∧ c.toNat ≤ 90
  · rw [lowerC, if_pos h, if_pos h]
    exact charToNat_ofNat (Or.inl (by omega))
  · rw [lowerC, if_neg h, if_neg h]

theorem lowerC_idem (c : Char) : lowerC (lowerC c) = lowerC c := by
  rw [lowerC]
  rw [lowerC_toNat]
  by_cases h : 65 ≤ c.toNat ∧ c.toNat ≤ 90
  · rw [if_pos h, if_neg (by omega)]
  · rw [if_neg h, if_neg h]

/-- `lowerC` fixes every character outside the uppercase range. -/
theorem lowerC_fix {c : Char} (h : c.toNat < 65 ∨ 90 < c.toNat) : lowerC c = c := by
  rw [lowerC, if_neg (by omega)]

/-- `lowerC` fixes every non-letter and only moves uppercase letters into
the lowercase range, so a non-letter is hit only by itself. -/
theorem lowerC_eq_iff {t : Char}
    (ht : t.toNat < 65 ∨ (90 < t.toNat ∧ t.toNat < 97) ∨ 122 < t.toNat) (c : Char) :
    lowerC c = t ↔ c = t := by
  constructor
  · intro h
    by_cases hc : 65 ≤ c.toNat ∧ c.toNat ≤ 90
    · exfalso
      have h2 : (lowerC c).toNat = c.toNat + 32 := by rw [lowerC_toNat, if_pos hc]
      rw [h] at h2
      omega
    · rwa [lowerC, if_neg hc] at h
  · intro h
    subst h
    rw [lowerC, if_neg (by omega)]

/-! ## List-utility lemmas -/

theorem concatMap_append (f : α → List β) (a b : List α) :
    concatMap f (a ++ b) = concatMap f a ++ concatMap f b := by
  induction a with
  | nil => rfl
  | cons x xs ih => simp [concatMap, ih]

theorem all_concatMap (P : β → Prop) (f : α → List β) (l : List α)
    (h : ∀ a ∈ l, ∀ x ∈ f a, P x) : ∀ x ∈ concatMap f l, P x := by
  induction l with
  | nil => intro x hx; simp [concatMap] at hx
  | cons a l ih =>
    intro x hx
    rw [concatMap, List.mem_append] at hx
    rcases hx with hx | hx
    · exact h a (by simp) x hx
    · exact ih (fun a ha => h a (by simp [ha])) x hx

theorem spanP_append_eq (p : Char → Bool) (s : Str) :
    (spanP p s).1 ++ (spanP p s).2 = s := by
  induction s with
  | nil => rfl
  | cons c rest ih =>
    rw [spanP]
    by_cases h : p c
    · simp only [h, if_pos]
      simpa using ih
    · simp [h]

theorem spanP_fst_all (p : Char → Bool) (s : Str) :
    ∀ c ∈ (spanP p s).1, p c = true := by
  induction s with
  | nil => intro c hc; simp [spanP] at hc
  | cons a rest ih =>
    intro c hc
    rw [spanP] at hc
    by_cases h : p a
    · simp only [h, if_pos] at hc
      simp only [List.mem_cons] at hc
      rcases hc with rfl | hc
      · exact h
      · exact ih c hc
    · simp [h] at hc

theorem spanP_all (p : Char → Bool) (s : Str) (h : ∀ c ∈ s, p c = true) :
    spanP p s = (s, []) := by
  induction s with
  | nil => rfl
  | cons c rest ih =>
    rw [spanP, if_pos (h c (by simp)), ih (fun c hc => h c (by simp [hc]))]

theorem spanP_append (p : Char → Bool) (a : Str) (b : Char) (r : Str)
    (ha : ∀ c ∈ a, p c = true) (hb : p b = false) :
    spanP p (a ++ b :: r) = (a, b :: r) := by
  induction a with
  | nil => simp [spanP, hb]
  | cons c cs ih =>
    rw [List.cons_append, spanP, if_pos (ha c (by simp)),
      ih (fun c hc => ha c (by simp [hc]))]

theorem spanP_map_comm (p : Char → Bool) (f : Char → Char)
    (hf : ∀ c, p (f c) = p c) (s : Str) :
    spanP p (s.map f) = ((spanP p s).1.map f, (spanP p s).2.map f) := by
  induction s with
  | nil => rfl
  | cons c rest ih =>
    rw [List.map_cons, spanP, spanP, hf c]
    by_cases h : p c
    · simp [h, ih]
    · simp [h]

theorem splitAll_ne_nil (sep : Char) (s : Str) : splitAll sep s ≠ [] := by
  cases s with
  | nil => simp [splitAll]
  | cons c rest =>
    rw [splitAll]
    rcases h : splitAll sep rest with _ | ⟨x, xs⟩
    · simp
    · by_cases hc : c == sep <;> simp [hc]

theorem splitAll_no_sep (sep : Char) (s : Str) (h : ∀ c ∈ s, ¬(c = sep)) :
    splitAll sep s = [s] := by
  induction s with
  | nil => rfl
  | cons c rest ih =>
    rw [splitAll, ih (fun x hx => h x (by simp [hx]))]
    have : (c == sep) = false := by
      simpa using h c (by simp)
    simp [this]

theorem splitAll_append_sep (sep : Char) (a r : Str) (h : ∀ c ∈ a, ¬(c = sep)) :
    splitAll sep (a ++ sep :: r) = a :: splitAll sep r := by
  induction a with
  | nil =>
    rw [List.nil_append, splitAll]
    rcases hs : splitAll sep r with _ | ⟨x, xs⟩
    · exact absurd hs (splitAll_ne_nil sep r)
    · simp
  | cons c cs ih =>
    rw [List.cons_append, splitAll, ih (fun x hx => h x (by simp [hx]))]
    have : (c == sep) = false := by
      simpa using h c (by simp)
    simp [this]

theorem splitLast_append (c : Char) (a b : Str) (hb : ∀ x ∈ b, ¬(x = c)) :
    splitLast c (a ++ c :: b) = some (a, b) := by
  rw [splitLast]
  have hrev : (a ++ c :: b).reverse = b.reverse ++ c :: a.reverse := by
    simp
  rw [hrev, spanP_append (fun x => !(x == c)) b.reverse c a.reverse
    (fun x hx => by simpa using hb x (List.mem_reverse.mp hx)) (by simp)]
  simp

theorem splitLast_none (c : Char) (s : Str) (h : ∀ x ∈ s, ¬(x = c)) :
    splitLast c s = none := by
  rw [splitLast, spanP_all (fun x => !(x == c)) s.reverse
    (fun x hx => by simpa using h x (List.mem_reverse.mp hx))]

theorem spanP_snd_cases (p : Char → Bool) (s : Str) :
    (spanP p s).2 = [] ∨ ∃ d t, (spanP p s).2 = d :: t ∧ p d = false := by
  induction s with
  | nil => left; rfl
  | cons c rest ih =>
    rw [spanP]
    by_cases h : p c
    · simpa [h] using ih
    · right
      exact ⟨c, rest, by simp [h], by simpa using h⟩

theorem splitLast_sound (c : Char) (s a b : Str)
    (h : splitLast c s = some (a, b)) :
    s = a ++ c :: b ∧ ∀ x ∈ b, ¬(x = c) := by
  rw [splitLast] at h
  rcases hsp : spanP (fun x => !(x == c)) s.reverse with ⟨bRev, rest⟩
  rw [hsp] at h
  rcases rest with _ | ⟨d, aRev⟩
  · simp at h
  · simp only [Option.some.injEq, Prod.mk.injEq] at h
    have heq : bRev ++ d :: aRev = s.reverse := by
      have h2 := spanP_append_eq (fun x => !(x == c)) s.reverse
      rw [hsp] at h2
      exact h2
    have hd : d = c := by
      rcases spanP_snd_cases (fun x => !(x == c)) s.reverse with h2 | ⟨e, t, h2, h3⟩
      · rw [hsp] at h2; simp at h2
      · rw [hsp] at h2
        simp only [List.cons.injEq] at h2
        rw [← h2.1] at h3
        simpa using h3
    rw [hd] at hsp heq
    have hb : ∀ x ∈ b, ¬(x = c) := by
      intro x hx
      have hx2 : x ∈ bRev := by
        rw [← h.2] at hx
        exact List.mem_reverse.mp hx
      have := spanP_fst_all (fun x => !(x == c)) s.reverse x (by rw [hsp]; exact hx2)
      simpa using this
    refine ⟨?_, hb⟩
    have : s.reverse.reverse = (bRev ++ c :: aRev).reverse := by rw [heq]
    rw [List.reverse_reverse] at this
    rw [this, List.reverse_append, List.reverse_cons, ← h.1, ← h.2]
    simp

/-! ## UTF-8 / percent-encoding round trip -/

theorem utf8Enc_ne_nil (n : Nat) : utf8Enc n ≠ [] := by
  rw [utf8Enc]
  by_cases h1 : n < 128
  · simp [h1]
  · by_cases h2 : n < 2048
    · simp [h1, h2]
    · by_cases h3 : n < 65536 <;> simp [h1, h2, h3]

theorem utf8Enc_lt256 {n : Nat} (hn : n < 1114112) : ∀ b ∈ utf8Enc n, b < 256 := by
  intro b hb
  rw [utf8Enc] at hb
  by_cases h1 : n < 128
  · simp [h1] at hb; omega
  · by_cases h2 : n < 2048
    · simp [h1, h2] at hb
      rcases hb with rfl | rfl <;> omega
    · by_cases h3 : n < 65536
      · simp [h1, h2, h3] at hb
        rcases hb with rfl | rfl | rfl <;> omega
      · simp [h1, h2, h3] at hb
        rcases hb with rfl | rfl | rfl | rfl <;> omega

theorem utf8Dec_cons_lt128 {b : Nat} (hb : b < 128) (rest : List Nat) :
    utf8Dec (b :: rest) = b :: utf8Dec rest := by
  rcases rest with _ | ⟨b2, (_ | ⟨b3, (_ | ⟨b4, r⟩)⟩)⟩ <;>
    simp [utf8Dec, hb]

theorem utf8Dec_two {b b2 : Nat} (h1 : 192 ≤ b) (h2 : b < 224)
    (hc : contB b2 = true) (rest : List Nat) :
    utf8Dec (b :: b2 :: rest) = rep2 b b2 :: utf8Dec rest := by
  have hb1 : ¬b < 128 := by omega
  have hb2 : ¬b < 192 := by omega
  rcases rest with _ | ⟨b3, (_ | ⟨b4, r⟩)⟩ <;>
    simp [utf8Dec, hb1, hb2, h2, hc, rep2]

theorem utf8Dec_three {b b2 b3 : Nat} (h1 : 224 ≤ b) (h2 : b < 240)
    (hc2 : contB b2 = true) (hc3 : contB b3 = true) (rest : List Nat) :
    utf8Dec (b :: b2 :: b3 :: rest) = rep3 b b2 b3 :: utf8Dec rest := by
  have hb1 : ¬b < 128 := by omega
  have hb2 : ¬b < 192 := by omega
  have hb3 : ¬b < 224 := by omega
  rcases rest with _ | ⟨b4, r⟩ <;>
    simp [utf8Dec, hb1, hb2, hb3, h2, hc2, hc3, rep3]

theorem utf8Dec_four {b b2 b3 b4 : Nat} (h1 : 240 ≤ b)
    (hc2 : contB b2 = true) (hc3 : contB b3 = true) (hc4 : contB b4 = true)
    (rest : List Nat) :
    utf8Dec (b :: b2 :: b3 :: b4 :: rest) = rep4 b b2 b3 b4 :: utf8Dec rest := by
  have hb1 : ¬b < 128 := by omega
  have hb2 : ¬b < 192 := by omega
  have hb3 : ¬b < 224 := by omega
  have hb4 : ¬b < 240 := by omega
  simp [utf8Dec, hb1, hb2, hb3, hb4, hc2, hc3, hc4, rep4]

/-- Decoding a validly encoded scalar value steps exactly. -/
theorem utf8Dec_enc {n : Nat} (hv : Nat.isValidChar n) (rest : List Nat) :
    utf8Dec (utf8Enc n ++ rest) = n :: utf8Dec rest := by
  have hn : n < 1114112 ∧ ¬(55296 ≤ n ∧ n ≤ 57343) := by
    rcases hv with h | h
    · constructor
      · omega
      · omega
    · constructor
      · omega
      · omega
  rw [utf8Enc]
  by_cases h1 : n < 128
  · rw [if_pos h1]
    exact utf8Dec_cons_lt128 h1 rest
  · by_cases h2 : n < 2048
    · rw [if_neg h1, if_pos h2]
      rw [List.cons_append, List.cons_append, List.nil_append]
      rw [utf8Dec_two (by omega) (by omega) (by simp [contB]; omega) rest]
      have : rep2 (192 + n / 64) (128 + n % 64) = n := by
        rw [rep2, dec2val]
        have hval : (192 + n / 64 - 192) * 64 + (128 + n % 64 - 128) = n := by omega
        rw [hval, if_neg (by omega)]
      rw [this]
    · by_cases h3 : n < 65536
      · rw [if_neg h1, if_neg h2, if_pos h3]
        rw [List.cons_append, List.cons_append, List.cons_append, List.nil_append]
        rw [utf8Dec_three (by omega) (by omega) (by simp [contB]; omega)
          (by simp [contB]; omega) rest]
        have : rep3 (224 + n / 4096) (128 + n / 64 % 64) (128 + n % 64) = n := by
          rw [rep3, dec3val]
          have hval : (224 + n / 4096 - 224) * 4096 + (128 + n / 64 % 64 - 128) * 64
              + (128 + n % 64 - 128) = n := by omega
          rw [hval, if_neg (by omega)]
        rw [this]
      · rw [if_neg h1, if_neg h2, if_neg h3]
        rw [List.cons_append, List.cons_append, List.cons_append, List.cons_append,
          List.nil_append]
        rw [utf8Dec_four (by omega) (by simp [contB]; omega) (by simp [contB]; omega)
          (by simp [contB]; omega) rest]
        have : rep4 (240 + n / 262144) (128 + n / 4096 % 64) (128 + n / 64 % 64)
            (128 + n % 64) = n := by
          rw [rep4, dec4val]
          have hval : (240 + n / 262144 - 240) * 262144 + (128 + n / 4096 % 64 - 128) * 4096
              + (128 + n / 64 % 64 - 128) * 64 + (128 + n % 64 - 128) = n := by omega
          rw [hval, if_neg (by omega)]
        rw [this]

theorem hexDigitUpper_toNat {d : Nat} (hd : d < 16) :
    (hexDigitUpper d).toNat = if d < 10 then 48 + d else 55 + d := by
  rw [hexDigitUpper]
  by_cases h : d < 10
  · rw [if_pos h, if_pos h, charToNat_ofNat (Or.inl (by omega))]
  · rw [if_neg h, if_neg h, charToNat_ofNat (Or.inl (by omega))]

theorem hexVal?_hexDigitUpper {d : Nat} (hd : d < 16) :
    hexVal? (hexDigitUpper d) = some d := by
  rw [hexVal?, hexDigitUpper]
  by_cases h : d < 10
  · rw [if_pos h, charToNat_ofNat (Or.inl (by omega))] at *
    rw [if_pos (by omega)]
    congr 1
    omega
  · rw [if_neg h, charToNat_ofNat (Or.inl (by omega))] at *
    rw [if_neg (by omega), if_pos (by omega)]
    congr 1
    omega

theorem unqUnits_cons_lit {c : Char} (h128 : c.toNat < 128) (hp : ¬(c = '%'))
    (rest : Str) : unqUnits (c :: rest) = Sum.inl c.toNat :: unqUnits rest := by
  have hb : (c == '%') = false := by simpa using hp
  rcases rest with _ | ⟨c1, (_ | ⟨c2, r⟩)⟩ <;>
    simp [unqUnits, unitOf, hb, h128]

theorem unqUnits_percEnc {b : Nat} (hb : b < 256) (rest : Str) :
    unqUnits (percEnc b ++ rest) = Sum.inl b :: unqUnits rest := by
  rw [percEnc]
  rw [List.cons_append, List.cons_append, List.cons_append, List.nil_append]
  rw [unqUnits]
  rw [if_pos (by simp)]
  rw [hexVal?_hexDigitUpper (by omega), hexVal?_hexDigitUpper (by omega)]
  have : 16 * (b / 16) + b % 16 = b := by omega
  simp only []
  rw [this]

theorem unqUnits_percRun {bs : List Nat} (hb : ∀ b ∈ bs, b < 256) (rest : Str) :
    unqUnits (concatMap percEnc bs ++ rest) = bs.map Sum.inl ++ unqUnits rest := by
  induction bs with
  | nil => simp [concatMap]
  | cons b bs ih =>
    rw [concatMap, List.append_assoc, unqUnits_percEnc (hb b (by simp)),
      ih (fun x hx => hb x (by simp [hx]))]
    simp

theorem decodeUnits_inl (bs : List Nat) (acc : List Nat) :
    decodeUnits (bs.map Sum.inl) acc = utf8Chars (utf8Dec (acc.reverse ++ bs)) := by
  induction bs generalizing acc with
  | nil => simp [decodeUnits]
  | cons b bs ih =>
    rw [List.map_cons, decodeUnits, ih]
    congr 2
    simp

theorem concatMap_map_right (f : α → List β) (g : β → γ) (l : List α) :
    (concatMap f l).map g = concatMap (fun a => (f a).map g) l := by
  induction l with
  | nil => rfl
  | cons a l ih => simp [concatMap, ih]

theorem map_fix_of_all {f : α → α} {l : List α} (h : ∀ x ∈ l, f x = x) :
    l.map f = l := by
  rw [List.map_congr_left h]
  simp

theorem alwaysSafe_ranges {c : Char} (h : alwaysSafeC c = true) :
    (48 ≤ c.toNat ∧ c.toNat ≤ 57) ∨ (65 ≤ c.toNat ∧ c.toNat ≤ 90)
      ∨ (97 ≤ c.toNat ∧ c.toNat ≤ 122) ∨ c.toNat = 95 ∨ c.toNat = 46
      ∨ c.toNat = 45 ∨ c.toNat = 126 := by
  rw [alwaysSafeC] at h
  simp only [Bool.or_eq_true, beq_iff_eq, isAsciiAlphaC, isAsciiDigitC,
    decide_eq_true_eq] at h
  rcases h with (((((h | h) | h) | h) | h) | h) | h
  · tauto
  · tauto
  · tauto
  · have h95 : c.toNat = 95 := by subst h; decide
    tauto
  · have h46 : c.toNat = 46 := by subst h; decide
    tauto
  · have h45 : c.toNat = 45 := by subst h; decide
    tauto
  · have h126 : c.toNat = 126 := by subst h; decide
    tauto

theorem ranges_alwaysSafe {c : Char}
    (h : (48 ≤ c.toNat ∧ c.toNat ≤ 57) ∨ (65 ≤ c.toNat ∧ c.toNat ≤ 90)
      ∨ (97 ≤ c.toNat ∧ c.toNat ≤ 122) ∨ c.toNat = 95 ∨ c.toNat = 46
      ∨ c.toNat = 45 ∨ c.toNat = 126) : alwaysSafeC c = true := by
  rw [alwaysSafeC]
  simp only [Bool.or_eq_true, beq_iff_eq, isAsciiAlphaC, isAsciiDigitC,
    decide_eq_true_eq]
  rcases h with h | h | h | h | h | h | h
  · tauto
  · tauto
  · tauto
  · have hc : c = '_' := charToNat_injEq (by rw [h]; decide)
    tauto
  · have hc : c = '.' := charToNat_injEq (by rw [h]; decide)
    tauto
  · have hc : c = '-' := charToNat_injEq (by rw [h]; decide)
    tauto
  · have hc : c = '~' := charToNat_injEq (by rw [h]; decide)
    tauto

/-- Every character `quote` (with empty safe set) emits is a safe
character or `%`. -/
theorem quoteChar_chars (c : Char) :
    ∀ x ∈ quoteChar c, alwaysSafeC x = true ∨ x = '%' := by
  intro x hx
  rw [quoteChar] at hx
  by_cases hsafe : alwaysSafeC c
  · rw [if_pos hsafe] at hx
    simp only [List.mem_singleton] at hx
    subst hx
    tauto
  · rw [if_neg hsafe] at hx
    have hvc : c.toNat < 1114112 := by
      rcases charToNat_valid c with h | h <;> omega
    have hall : ∀ y ∈ concatMap percEnc (utf8Enc c.toNat),
        alwaysSafeC y = true ∨ y = '%' := by
      apply all_concatMap
      intro b hb y hy
      have hb256 : b < 256 := utf8Enc_lt256 hvc b hb
      rw [percEnc] at hy
      simp only [List.mem_cons, List.not_mem_nil, or_false] at hy
      rcases hy with rfl | rfl | rfl
      · tauto
      · left
        apply ranges_alwaysSafe
        rw [hexDigitUpper_toNat (by omega)]
        by_cases h10 : b / 16 < 10
        · rw [if_pos h10]; omega
        · rw [if_neg h10]; omega
      · left
        apply ranges_alwaysSafe
        rw [hexDigitUpper_toNat (by omega)]
        by_cases h10 : b % 16 < 10
        · rw [if_pos h10]; omega
        · rw [if_neg h10]; omega
    exact hall x hx

/-- Every character `quote_plus` emits is a safe character, `+`, or `%`. -/
theorem quotePlusC_chars (c : Char) :
    ∀ x ∈ quotePlusC c, alwaysSafeC x = true ∨ x = '+' ∨ x = '%' := by
  intro x hx
  rw [quotePlusC] at hx
  by_cases hsp : c == ' '
  · rw [if_pos hsp] at hx
    simp only [List.mem_singleton] at hx
    tauto
  · rw [if_neg hsp] at hx
    rcases quoteChar_chars c x hx with h | h
    · tauto
    · tauto

theorem quotePlus_chars (s : Str) :
    ∀ x ∈ quotePlus s, alwaysSafeC x = true ∨ x = '+' ∨ x = '%' :=
  all_concatMap _ quotePlusC s (fun c _ => quotePlusC_chars c)

/-- Numeric form of the previous fact, convenient for `omega`. -/
theorem quotePlus_charRange (s : Str) :
    ∀ x ∈ quotePlus s, x.toNat = 43 ∨ x.toNat = 37
      ∨ (48 ≤ x.toNat ∧ x.toNat ≤ 57) ∨ (65 ≤ x.toNat ∧ x.toNat ≤ 90)
      ∨ (97 ≤ x.toNat ∧ x.toNat ≤ 122) ∨ x.toNat = 95 ∨ x.toNat = 46
      ∨ x.toNat = 45 ∨ x.toNat = 126 := by
  intro x hx
  rcases quotePlus_chars s x hx with h | h | h
  · rcases alwaysSafe_ranges h with h | h | h | h | h | h | h <;> tauto
  · subst h; tauto
  · subst h; tauto

theorem quotePlusC_ne_nil (c : Char) : quotePlusC c ≠ [] := by
  rw [quotePlusC]
  by_cases hsp : c == ' '
  · simp [hsp]
  · rw [if_neg hsp, quoteChar]
    by_cases hsafe : alwaysSafeC c
    · simp [hsafe]
    · rw [if_neg hsafe]
      rcases he : utf8Enc c.toNat with _ | ⟨b, bs⟩
      · exact absurd he (utf8Enc_ne_nil c.toNat)
      · simp [concatMap, percEnc]

theorem quotePlus_ne_nil {s : Str} (h : s ≠ []) : quotePlus s ≠ [] := by
  rcases s with _ | ⟨c, rest⟩
  · exact absurd rfl h
  · rw [quotePlus, concatMap]
    intro hc
    rcases List.append_eq_nil.mp hc with ⟨h1, _⟩
    exact quotePlusC_ne_nil c h1

theorem plusToSpace_quotePlus (s : Str) :
    plusToSpace (quotePlus s)
      = concatMap (fun c => if c == ' ' then [' '] else quoteChar c) s := by
  rw [plusToSpace, quotePlus, concatMap_map_right]
  congr 1
  funext c
  by_cases hsp : c == ' '
  · rw [quotePlusC, if_pos hsp, if_pos hsp]
    rfl
  · rw [quotePlusC, if_neg hsp, if_neg hsp]
    apply map_fix_of_all
    intro x hx
    have hne : ¬(x == '+') := by
      intro hb
      have hx43 : x.toNat = 43 := by
        have hxe : x = '+' := by simpa using hb
        subst hxe; rfl
      rcases quoteChar_chars c x hx with h | h
      · rcases alwaysSafe_ranges h with h | h | h | h | h | h | h <;> omega
      · subst h
        simp at hx43
    simp [hne]

theorem unqUnits_quoted (s : Str) :
    unqUnits (concatMap (fun c => if c == ' ' then [' '] else quoteChar c) s)
      = (concatMap (fun c => utf8Enc c.toNat) s).map Sum.inl := by
  induction s with
  | nil => rfl
  | cons c rest ih =>
    rw [concatMap, concatMap, List.map_append]
    by_cases hsp : c == ' '
    · have hc : c = ' ' := by simpa using hsp
      subst hc
      rw [if_pos (by simp)]
      rw [List.cons_append, List.nil_append]
      rw [unqUnits_cons_lit (by decide) (by decide)]
      rw [ih]
      rfl
    · rw [if_neg hsp, quoteChar]
      by_cases hsafe : alwaysSafeC c
      · rw [if_pos hsafe]
        have h128 : c.toNat < 128 := by
          rcases alwaysSafe_ranges hsafe with h | h | h | h | h | h | h <;> omega

        have hpct : ¬(c = '%') := by
          intro hc
          subst hc
          exact absurd hsafe (by decide)
        rw [List.cons_append, List.nil_append, unqUnits_cons_lit h128 hpct, ih]
        have : utf8Enc c.toNat = [c.toNat] := by
          rw [utf8Enc, if_pos h128]
        rw [this]
        rfl
      · rw [if_neg hsafe]
        have hvc : c.toNat < 1114112 := by
          rcases charToNat_valid c with h | h <;> omega
        rw [unqUnits_percRun (fun b hb => utf8Enc_lt256 hvc b hb), ih]

theorem utf8Dec_encRun (s : Str) :
    utf8Dec (concatMap (fun c => utf8Enc c.toNat) s) = s.map Char.toNat := by
  induction s with
  | nil => rfl
  | cons c rest ih =>
    rw [concatMap, utf8Dec_enc (charToNat_valid c), ih, List.map_cons]

/-- The quote/unquote round trip at the heart of query idempotence:
`unquote_plus (quote_plus s) = s` for every string. -/
theorem unquotePlus_quotePlus (s : Str) : unquotePlus (quotePlus s) = s := by
  rw [unquotePlus, plusToSpace_quotePlus, unquoteL, unqUnits_quoted,
    decodeUnits_inl]
  rw [List.reverse_nil, List.nil_append, utf8Dec_encRun, utf8Chars,
    List.map_map]
  apply map_fix_of_all
  intro x _
  exact charOfNat_toNat x

/-! ## `parse_qsl` / `urlencode` round trip -/

theorem quotePlus_no_eq (s : Str) : ∀ x ∈ quotePlus s, ¬(x = '=') := by
  intro x hx hc
  subst hc
  have h61 : ('=').toNat = 61 := by decide
  rcases quotePlus_charRange s _ hx with h | h | h | h | h | h | h | h | h <;> omega

theorem quotePlus_no_amp (s : Str) : ∀ x ∈ quotePlus s, ¬(x = '&') := by
  intro x hx hc
  subst hc
  have h38 : ('&').toNat = 38 := by decide
  rcases quotePlus_charRange s _ hx with h | h | h | h | h | h | h | h | h <;> omega

theorem utf8Dec_ne_nil {bs : List Nat} (h : bs ≠ []) : utf8Dec bs ≠ [] := by
  rcases bs with _ | ⟨b, (_ | ⟨b2, (_ | ⟨b3, (_ | ⟨b4, r⟩)⟩)⟩)⟩
  · exact absurd rfl h
  · rw [utf8Dec]; split_ifs <;> simp
  · rw [utf8Dec]; split_ifs <;> simp
  · rw [utf8Dec]; split_ifs <;> simp
  · rw [utf8Dec]; split_ifs <;> simp

theorem decodeUnits_ne_nil :
    ∀ (units : List (Sum Nat Char)) (acc : List Nat),
      (units = [] → acc ≠ []) → decodeUnits units acc ≠ [] := by
  intro units
  induction units with
  | nil =>
    intro acc h
    rw [decodeUnits, utf8Chars]
    intro hc
    rcases List.map_eq_nil_iff.mp hc with h2
    exact utf8Dec_ne_nil (by simpa using h rfl) h2
  | cons u rest ih =>
    intro acc _
    rcases u with b | c
    · rw [decodeUnits]
      exact ih (b :: acc) (by simp)
    · rw [decodeUnits]
      simp

theorem unqUnits_ne_nil {s : Str} (h : s ≠ []) : unqUnits s ≠ [] := by
  rcases s with _ | ⟨c, (_ | ⟨c1, (_ | ⟨c2, r⟩)⟩)⟩
  · exact absurd rfl h
  · rw [unqUnits]; simp
  · rw [unqUnits]; simp
  · rw [unqUnits]
    split_ifs
    · rcases hexVal? c1 with _ | h1 <;> rcases hexVal? c2 with _ | h2 <;> simp
    · simp

theorem unquotePlus_ne_nil {s : Str} (h : s ≠ []) : unquotePlus s ≠ [] := by
  rw [unquotePlus, unquoteL]
  apply decodeUnits_ne_nil
  intro hu
  refine absurd hu (unqUnits_ne_nil ?_)
  rw [plusToSpace]
  simpa using h

theorem parsePiece_some {piece : Str} {kv : Str × Str}
    (h : parsePiece piece = some kv) : kv.2 ≠ [] := by
  rw [parsePiece] at h
  by_cases hp : piece = []
  · rw [if_pos hp] at h; simp at h
  · rw [if_neg hp] at h
    rcases hsp : spanP (fun c => !(c == '=')) piece with ⟨nm, rest⟩
    rw [hsp] at h
    rcases rest with _ | ⟨e, v⟩
    · simp at h
    · simp only [] at h
      by_cases hv : v = []
      · rw [if_pos hv] at h; simp at h
      · rw [if_neg hv] at h
        simp only [Option.some.injEq] at h
        rw [← h]
        exact unquotePlus_ne_nil hv

theorem parseQsl_values_ne_nil (q : Str) : ∀ kv ∈ parseQsl q, kv.2 ≠ [] := by
  intro kv hkv
  rw [parseQsl] at hkv
  rcases List.mem_filterMap.mp hkv with ⟨piece, _, hp⟩
  exact parsePiece_some hp

theorem parsePiece_encPair (k v : Str) (hv : v ≠ []) :
    parsePiece (quotePlus k ++ '=' :: quotePlus v) = some (k, v) := by
  rw [parsePiece]
  rw [if_neg (by simp)]
  rw [spanP_append (fun c => !(c == '=')) (quotePlus k) '=' (quotePlus v)
    (fun c hc => by simpa using quotePlus_no_eq k c hc) (by simp)]
  simp only []
  rw [if_neg (quotePlus_ne_nil hv), unquotePlus_quotePlus, unquotePlus_quotePlus]

/-- `parse_qsl(urlencode(qs)) = qs` whenever no value is blank (blank
values are the ones `parse_qsl` drops). -/
theorem parseQsl_urlencode (qs : List (Str × Str))
    (hv : ∀ kv ∈ qs, kv.2 ≠ []) : parseQsl (urlencodeL qs) = qs := by
  induction qs with
  | nil => rfl
  | cons kv rest ih =>
    rcases kv with ⟨k, v⟩
    have hkv : v ≠ [] := by simpa using hv (k, v) (by simp)
    have hpc : ∀ c ∈ quotePlus k ++ '=' :: quotePlus v, ¬(c = '&') := by
      intro c hc hc2
      subst hc2
      rw [List.mem_append, List.mem_cons] at hc
      rcases hc with hc | hc | hc
      · exact quotePlus_no_amp k _ hc rfl
      · simp at hc
      · exact quotePlus_no_amp v _ hc rfl
    rcases rest with _ | ⟨kv2, rest2⟩
    · rw [urlencodeL, List.map_cons, List.map_nil, intercalateAmp, parseQsl,
        splitAll_no_sep '&' _ hpc]
      rw [List.filterMap]
      rw [parsePiece_encPair k v hkv]
      rfl
    · rw [urlencodeL, List.map_cons, List.map_cons, intercalateAmp, parseQsl,
        splitAll_append_sep '&' _ _ hpc]
      rw [List.filterMap]
      rw [parsePiece_encPair k v hkv]
      have ih2 := ih (fun x hx => hv x (by simp [hx]))
      rw [parseQsl, urlencodeL, List.map_cons] at ih2
      rw [ih2]

/-! ## Store lemmas -/

theorem find?_append_of_none {p : α → Bool} {l1 : List α} (l2 : List α)
    (h : l1.find? p = none) : (l1 ++ l2).find? p = l2.find? p := by
  induction l1 with
  | nil => rfl
  | cons a l ih =>
    rcases hp : p a with _ | _
    · rw [List.find?_cons_of_neg l (by simp [hp])] at h
      rw [List.cons_append, List.find?_cons_of_neg _ (by simp [hp])]
      exact ih h
    · rw [List.find?_cons_of_pos l hp] at h
      simp at h

theorem trustOf_update (doms : List (String × Int)) (d : String) (δ : Int) :
    trustOf (updateDomainTrust doms d δ) d = trustOf doms d + δ := by
  rw [updateDomainTrust]
  by_cases hany : doms.any (fun p => p.1 == d)
  · rw [if_pos hany]
    rcases List.any_eq_true.mp hany with ⟨x0, hx0, hpx0⟩
    rcases hf : doms.find? (fun p => p.1 == d) with _ | ⟨y0⟩
    · rw [List.find?_eq_none] at hf
      exact absurd hpx0 (hf x0 hx0)
    · have hy0 := List.find?_some hf
      simp only [] at hy0
      rw [trustOf, trustOf, List.find?_map]
      have hcomp : ((fun p : String × Int => p.1 == d) ∘
          (fun p : String × Int => if p.1 == d then
            (d, (Option.map (fun p => p.2) (doms.find? fun p => p.1 == d)).getD 0 + δ)
          else p)) = (fun p : String × Int => p.1 == d) := by
        funext p
        by_cases hp : (p.1 == d) = true
        · simp [Function.comp, hp]
        · simp [Function.comp, hp]
      rw [hcomp, hf]
      simp [hy0]
      rw [if_pos (eq_of_beq hy0)]

  · rw [if_neg hany]
    have hf : doms.find? (fun p => p.1 == d) = none := by
      rw [List.find?_eq_none]
      intro x hx hpx
      exact hany (List.any_eq_true.mpr ⟨x, hx, hpx⟩)
    rw [trustOf, trustOf, find?_append_of_none _ hf, hf]
    rw [List.find?_cons]
    simp

theorem updateDomainTrust_fresh (doms : List (String × Int)) (d : String) (δ : Int)
    (h : doms.find? (fun p => p.1 == d) = none) :
    (updateDomainTrust doms d δ).find? (fun p => p.1 == d) = some (d, δ) := by
  rw [updateDomainTrust]
  have hany : doms.any (fun p => p.1 == d) = false := by
    rw [List.any_eq_false]
    intro x hx
    rw [List.find?_eq_none] at h
    exact fun hpx => (h x hx) hpx
  rw [if_neg (by simp [hany]), h]
  rw [find?_append_of_none _ h, List.find?_cons]
  simp

/-! # Claim theorems -/

/-- C1 — The Gate is a pure deterministic function of the triple
(status, score, finalDomain):  `check_one` accepts a resolved candidate
exactly when the HTTP status is 200 (the program's notion of success),
the score reaches `SCORE_THRESHOLD` (4) and the final resolved domain is
exactly `static.moonactive.net`.  Determinism and purity hold by
construction: `gate` is a function of exactly this triple. -/
theorem gate_accepts_iff (status score : Nat) (fd : String) :
    gate status score fd = true ↔
      (status = 200 ∧ SCORE_THRESHOLD ≤ score ∧ fd = ALLOWED_FINAL_DOMAIN) := by
  rw [gate]
  simp [Bool.and_eq_true, decide_eq_true_eq, beq_iff_eq, and_assoc]

/-- C3 — `DB.cleanup` semantics: dry-run returns the count of rows
matching `first_seen < cutoff OR valid = 0` and leaves the store
untouched; live mode deletes exactly the matching rows — but returns
`None` (the Python function has no `return` on that path), not the count
the spec promises, so `main` logs `Removed None expired/invalid
entries`. -/
theorem cleanup_semantics :
    (∀ (links : List LinkRow) (cutoff : String),
        (cleanup links cutoff true).2 = links
      ∧ (cleanup links cutoff true).1
          = some ((links.filter (cleanupMatch cutoff)).length))
  ∧ (∀ (links : List LinkRow) (cutoff : String) (r : LinkRow),
        r ∈ (cleanup links cutoff false).2 ↔ (r ∈ links ∧ cleanupMatch cutoff r = false))
  ∧ (∀ (links : List LinkRow) (cutoff : String),
        (cleanup links cutoff false).1 = none) := by
  refine ⟨fun links cutoff => ⟨rfl, ?_⟩, fun links cutoff r => ?_, fun links cutoff => rfl⟩
  · rw [cleanup, if_pos rfl]
    simp [List.countP_eq_length_filter]
  · rw [cleanup, if_neg (by simp)]
    simp only [List.mem_filter, Bool.not_eq_true']


/-- C4 — A failed fetch (any exception) collapses into the rejected
outcome: status `none`, final URL = the original URL, empty title, score
0, not valid; in live mode the store's links are untouched and the
candidate's host receives a `-1` trust adjustment. -/
theorem resolver_failure_outcome (st : DBState) (url src anchor now : String) :
    resolveOutcome url anchor none =
      { status := none, final_url := url, final_domain := domainOf url,
        title := "", score := 0, valid := false }
  ∧ (check_one false now st url src anchor none).2 = false
  ∧ (check_one false now st url src anchor none).1.links = st.links
  ∧ (check_one false now st url src anchor none).1.domains
      = updateDomainTrust st.domains (domainOf url) (-1) :=
  ⟨rfl, rfl, rfl, rfl⟩

/-- C2 — Upsert semantics of `DB.upsert_link`: re-upserting an existing
`url` key leaves `first_seen` (and `url`, `source`, `domain`) untouched
while overwriting `last_checked`, `final_url`, `final_domain`, `valid`,
`score` and `title`; the row count does not grow on conflict, and the
`url` key stays unique through any upsert (insert-or-update, never
append). -/
theorem upsert_conflict_semantics (links : List LinkRow) (r0 row : LinkRow)
    (h : findRow links row.url = some r0) :
    findRow (upsertLink links row) row.url = some { r0 with
        last_checked := row.last_checked, final_url := row.final_url,
        final_domain := row.final_domain, valid := row.valid,
        score := row.score, title := row.title }
    ∧ (upsertLink links row).length = links.length
    ∧ (∀ (l : List LinkRow) (r : LinkRow), (l.map LinkRow.url).Nodup →
        ((upsertLink l r).map LinkRow.url).Nodup) := by
  have hpred := List.find?_some h
  simp only [] at hpred
  have hmem : r0 ∈ links := List.mem_of_find?_eq_some h
  have hany : links.any (fun r => r.url == row.url) = true :=
    List.any_eq_true.mpr ⟨r0, hmem, hpred⟩
  refine ⟨?_, ?_, ?_⟩
  · rw [upsertLink, if_pos hany, findRow, List.find?_map]
    have hcomp : ((fun r : LinkRow => r.url == row.url) ∘
        (fun r : LinkRow => if r.url == row.url then
          { r with last_checked := row.last_checked, final_url := row.final_url,
                   final_domain := row.final_domain, valid := row.valid,
                   score := row.score, title := row.title }
        else r)) = (fun r : LinkRow => r.url == row.url) := by
      funext r
      by_cases hr : (r.url == row.url) = true
      · simp [Function.comp, hr]
      · simp [Function.comp, hr]
    rw [hcomp]
    rw [findRow] at h
    rw [h]
    simp only [Option.map_some']
    rw [if_pos hpred]
  · rw [upsertLink, if_pos hany, List.length_map]
  · intro l r hnd
    rw [upsertLink]
    by_cases ha : l.any (fun x => x.url == r.url)
    · rw [if_pos ha]
      have : (l.map (fun x : LinkRow => if x.url == r.url then
          { x with last_checked := r.last_checked, final_url := r.final_url,
                   final_domain := r.final_domain, valid := r.valid,
                   score := r.score, title := r.title }
        else x)).map LinkRow.url = l.map LinkRow.url := by
        rw [List.map_map]
        apply List.map_congr_left
        intro x _
        by_cases hx : (x.url == r.url) = true
        · simp [Function.comp, hx]
        · simp [Function.comp, hx]
      rw [this]
      exact hnd
    · rw [if_neg ha, List.map_append]
      rw [List.nodup_append]
      refine ⟨hnd, by simp, ?_⟩
      intro u hu hu2
      simp only [List.map_cons, List.map_nil, List.mem_singleton] at hu2
      subst hu2
      rcases List.mem_map.mp hu with ⟨x, hx, hxu⟩
      have ha2 : ∀ y ∈ l, ¬((fun x : LinkRow => x.url == r.url) y = true) := by
        rw [Bool.not_eq_true] at ha
        exact List.any_eq_false.mp ha
      exact (ha2 x hx) (by simp [hxu])

/-- C5 — Trust accounting of `DB.update_domain_trust` as driven by
`check_one` in live mode: every completed resolution adjusts the trust of
the candidate URL's host by exactly `+1` when accepted and `-1` when
rejected; `n` repeated `+1` (resp. `-1`) adjustments change the counter
by exactly `+n` (resp. `-n`); and the trust row is created lazily, on the
first adjustment, with exactly the delta as its value. -/
theorem trust_accounting :
    (∀ (st : DBState) (url src anchor now : String) (fetch : Option FetchResult),
        trustOf (check_one false now st url src anchor fetch).1.domains (domainOf url)
          = trustOf st.domains (domainOf url)
            + (if (check_one false now st url src anchor fetch).2 then 1 else -1))
  ∧ (∀ (doms : List (String × Int)) (d : String) (n : Nat),
        trustOf ((fun s => updateDomainTrust s d 1)^[n] doms) d
          = trustOf doms d + n)
  ∧ (∀ (doms : List (String × Int)) (d : String) (n : Nat),
        trustOf ((fun s => updateDomainTrust s d (-1))^[n] doms) d
          = trustOf doms d - n)
  ∧ (∀ (doms : List (String × Int)) (d : String) (δ : Int),
        doms.find? (fun p => p.1 == d) = none →
        (updateDomainTrust doms d δ).find? (fun p => p.1 == d) = some (d, δ)) := by
  refine ⟨?_, ?_, ?_, updateDomainTrust_fresh⟩
  · intro st url src anchor now fetch
    rcases ho : (resolveOutcome url anchor fetch).valid with _ | _
    · simp [check_one, ho, mkRow, trustOf_update]
    · simp [check_one, ho, mkRow, trustOf_update]
  · intro doms d n
    induction n with
    | zero => simp
    | succ n ih =>
      rw [Function.iterate_succ_apply', trustOf_update, ih]
      push_cast
      ring
  · intro doms d n
    induction n with
    | zero => simp
    | succ n ih =>
      rw [Function.iterate_succ_apply', trustOf_update, ih]
      push_cast
      ring

/-- C9 — In live mode, `check_one` either upserts a single row that is
`valid`, carries score 5 and final domain `static.moonactive.net`
(the accepted case), or leaves the `links` table exactly as it was (the
rejected/failed case, which touches only the trust table).  Consequently
every row of the links table after a cycle is either valid or was
already present before, so `valid = false` rows can only originate
outside the cycle (the `/invalidate` route). -/
theorem upsertLink_mem (links : List LinkRow) (row r : LinkRow)
    (hr : r ∈ upsertLink links row) : r ∈ links ∨ r.valid = row.valid := by
  rw [upsertLink] at hr
  by_cases ha : links.any (fun x => x.url == row.url)
  · rw [if_pos ha] at hr
    rcases List.mem_map.mp hr with ⟨x, hx, hxr⟩
    by_cases hxu : (x.url == row.url) = true
    · right
      rw [← hxr]
      rw [if_pos hxu]
    · left
      rw [← hxr, if_neg hxu]
      exact hx
  · rw [if_neg ha, List.mem_append] at hr
    rcases hr with hr | hr
    · exact Or.inl hr
    · simp only [List.mem_singleton] at hr
      subst hr
      right
      rfl

theorem run_writes_only_valid_rows (st : DBState) (url src anchor now : String)
    (fetch : Option FetchResult) :
    ((∃ row : LinkRow, row.valid = true ∧ row.score = 5
        ∧ row.final_domain = ALLOWED_FINAL_DOMAIN
        ∧ (check_one false now st url src anchor fetch).1.links
            = upsertLink st.links row)
      ∨ (check_one false now st url src anchor fetch).1.links = st.links)
  ∧ (∀ r ∈ (check_one false now st url src anchor fetch).1.links,
        r.valid = true ∨ r ∈ st.links) := by
  rcases ho : (resolveOutcome url anchor fetch).valid with _ | _
  · have hlinks : (check_one false now st url src anchor fetch).1.links = st.links := by
      simp [check_one, ho]
    refine ⟨Or.inr hlinks, ?_⟩
    intro r hr
    rw [hlinks] at hr
    exact Or.inr hr
  · -- accepted: the row written is valid with score 5 and allowed domain
    have hvalid : gate ((resolveOutcome url anchor fetch).status.getD 0)
        (resolveOutcome url anchor fetch).score
        (resolveOutcome url anchor fetch).final_domain = true := by
      rcases fetch with _ | ⟨f⟩
      · rw [resolveOutcome] at ho
        simp at ho
      · simp only [resolveOutcome] at ho ⊢
        simpa using ho
    have hg := (gate_accepts_iff _ _ _).mp hvalid
    have hscore : (resolveOutcome url anchor fetch).score = 5 := by
      rcases fetch with _ | ⟨f⟩
      · rw [resolveOutcome] at ho
        simp at ho
      · rcases hg with ⟨_, hs, _⟩
        simp only [resolveOutcome] at hs ⊢
        by_cases hr : isRewardText (f.finalUrl ++ " " ++ fetchTitle f ++ " " ++ anchor)
        · simp [hr]
        · simp [hr, SCORE_THRESHOLD] at hs
    have hrow : (check_one false now st url src anchor fetch).1.links
        = upsertLink st.links (mkRow url src now (resolveOutcome url anchor fetch)) := by
      simp [check_one, ho]
    refine ⟨Or.inl ⟨_, by simp [mkRow, ho], by simp [mkRow, hscore],
      by simp [mkRow, hg.2.2], hrow⟩, ?_⟩
    intro r hr
    rw [hrow] at hr
    rcases upsertLink_mem _ _ _ hr with h2 | h2
    · exact Or.inr h2
    · left
      rw [h2]
      simpa using ho

/-- C6 (counterexample) — Extraction does not deduplicate: a page
carrying the same reward link twice yields the same normalized URL twice
in the candidate sequence, refuting "each normalized URL at most once". -/
theorem scrape_emits_duplicates :
    scrape [("S", some [("https://static.moonactive.net/spins", "free spins"),
                        ("https://static.moonactive.net/spins", "free spins")])]
      = .ok [("https://static.moonactive.net/spins", "S", "free spins"),
             ("https://static.moonactive.net/spins", "S", "free spins")]
    ∧ ¬ (List.map (fun c : String × String × String => c.1)
          [("https://static.moonactive.net/spins", "S", "free spins"),
           ("https://static.moonactive.net/spins", "S", "free spins")]).Nodup := by
  constructor
  · decide
  · decide

/-- C6 (amended) — Extraction is a per-anchor filter-map with no
cross-anchor suppression: the candidates of a page split into any two
parts are exactly the candidates of the first part followed by those of
the second, so every surviving occurrence is emitted (duplicates
included), in order.  (Uniqueness is enforced only later, by the store's
`url` primary key, whose conflict handler also keeps the first source.) -/
theorem scrape_no_dedup (n : String) (xs ys : List (String × String)) :
    scrapeAnchors n (xs ++ ys) = (scrapeAnchors n xs).bind
      (fun cs => (scrapeAnchors n ys).map (fun ds => cs ++ ds)) := by
  induction xs with
  | nil =>
    rw [List.nil_append]
    rcases h : scrapeAnchors n ys with e | l
    · rfl
    · simp [h, Except.bind, Except.map, scrapeAnchors]
  | cons a xs ih =>
    rcases a with ⟨href, text⟩
    simp only [List.cons_append, List.append_eq, scrapeAnchors]
    by_cases h1 : !("http".data.isPrefixOf href.data)
    · rw [if_pos h1, if_pos h1, ih]
    · rw [if_neg h1, if_neg h1]
      rcases hn : normalize href with e | hrefN
      · rfl
      · simp only []
        by_cases h2 : BLACKLIST_DOMAINS.contains (domainOf hrefN)
        · rw [if_pos h2, if_pos h2, ih]
        · rw [if_neg h2, if_neg h2]
          by_cases h3 : FOOTER_KEYWORDS.any
              (fun k => containsSub k.data (hrefN.data.map lowerC))
          · rw [if_pos h3, if_pos h3, ih]
          · rw [if_neg h3, if_neg h3]
            by_cases h4 : !isRewardText (hrefN ++ " " ++ text)
            · rw [if_pos h4, if_pos h4, ih]
            · rw [if_neg h4, if_neg h4, ih]
              rcases hxs : scrapeAnchors n xs with e | cs
              · simp [hxs, Except.bind]
              · rcases hys : scrapeAnchors n ys with e2 | ds
                · simp [hxs, hys, Except.bind, Except.map]
                · simp [hxs, hys, Except.bind, Except.map]

/-- C8 (counterexample) — `normalize` is not total: `urlparse` raises
`ValueError` on a mismatched IPv6 bracket, which `normalize` propagates. -/
theorem normalize_raises_unbalanced :
    normalize "https://[" = Except.error ipv6ErrorMsg := by decide

/-- C8 (amended) — `normalize` is a pure function (no network access by
construction); its only failure is the `ValueError` of `urlparse`'s
authority validation.  For every input whose authority candidate is pure
ASCII — where CPython 3.11's `_checknetloc` NFKC-confusable check
returns immediately, so the bracket checks are the only failure source —
it fails exactly on mismatched square brackets or a bracketed host that
is neither a valid IPv6 nor IPvFuture literal.  (Non-ASCII authorities
can additionally be rejected by the NFKC check, which this model leaves
out.) -/
theorem normalize_ok_iff_ascii (u : String)
    (_hascii : ∀ c ∈ netlocCandidate u.data, c.toNat < 128) :
    (normalize u).isOk
      = (!bracketMismatch (netlocCandidate u.data)
        && (!((netlocCandidate u.data).contains '[' && (netlocCandidate u.data).contains ']')
            || (checkBracketedHost (bracketedHostOf (netlocCandidate u.data))).isNone)) := by
  have hcore : (normalize u).isOk
      = (splitNetloc (splitScheme (preClean u.data)).2).isOk := by
    rcases h : splitNetloc (splitScheme (preClean u.data)).2 with e | p
    · simp only [normalize, normalizeL, urlparseL, h]
      rfl
    · simp only [normalize, normalizeL, urlparseL, h]
      rfl
  rw [hcore]
  simp only [splitNetloc, netlocCandidate]
  by_cases ht : ((splitScheme (preClean u.data)).2).take 2 = ['/', '/']
  · rw [if_pos ht, if_pos ht]
    rcases hsp : spanP (fun c => !netlocDelim c)
        (((splitScheme (preClean u.data)).2).drop 2) with ⟨nl, rest⟩
    simp only [hsp]
    by_cases hm : bracketMismatch nl = true
    · rw [if_pos hm, hm]
      rfl
    · have hmf : bracketMismatch nl = false := by simpa using hm
      rw [if_neg hm, hmf]
      by_cases hb : (nl.contains '[' && nl.contains ']') = true
      · rw [if_pos hb, hb]
        rcases hc : checkBracketedHost (bracketedHostOf nl) with _ | e
        · rfl
        · rfl
      · have hbf : (nl.contains '[' && nl.contains ']') = false := by simpa using hb
        rw [if_neg hb, hbf]
        rfl
  · rw [if_neg ht, if_neg ht]
    rfl

/-- C7 (counterexample) — `normalize` is not idempotent on every input:
`https:////x` parses with empty authority and path `//x`; CPython 3.11's
`urlunsplit` then emits `https://x`, which re-parses with authority `x`
and normalizes to `https://x/`. -/
theorem normalize_not_idempotent :
    (normalize "https:////x").bind normalize ≠ normalize "https:////x" := by decide

/-- C2 (witness) — concrete instance of the upsert semantics. -/
theorem upsert_conflict_semantics_witness :
    findRow (upsertLink
        [{ url := "https://a/x", source := "S1", domain := "a",
           first_seen := "2024-01-01T00:00:00", last_checked := "2024-01-01T00:00:00",
           final_url := "f1", final_domain := "d1", valid := true, score := 5,
           title := "t1" }]
        { url := "https://a/x", source := "S2", domain := "a2",
          first_seen := "2024-02-02T00:00:00", last_checked := "2024-02-02T00:00:00",
          final_url := "f2", final_domain := "d2", valid := false, score := 0,
          title := "t2" }) "https://a/x"
      = some { url := "https://a/x", source := "S1", domain := "a",
               first_seen := "2024-01-01T00:00:00",
               last_checked := "2024-02-02T00:00:00",
               final_url := "f2", final_domain := "d2", valid := false, score := 0,
               title := "t2" } :=
  (upsert_conflict_semantics
    [{ url := "https://a/x", source := "S1", domain := "a",
       first_seen := "2024-01-01T00:00:00", last_checked := "2024-01-01T00:00:00",
       final_url := "f1", final_domain := "d1", valid := true, score := 5,
       title := "t1" }]
    { url := "https://a/x", source := "S1", domain := "a",
      first_seen := "2024-01-01T00:00:00", last_checked := "2024-01-01T00:00:00",
      final_url := "f1", final_domain := "d1", valid := true, score := 5,
      title := "t1" }
    { url := "https://a/x", source := "S2", domain := "a2",
      first_seen := "2024-02-02T00:00:00", last_checked := "2024-02-02T00:00:00",
      final_url := "f2", final_domain := "d2", valid := false, score := 0,
      title := "t2" }
    (by decide)).1

/-- C5 (witness) — lazy creation at a concrete input: adjusting a fresh
domain creates its row holding exactly the delta. -/
theorem trust_accounting_witness :
    (updateDomainTrust [] "techgameworld.com" 1).find?
        (fun p => p.1 == "techgameworld.com") = some ("techgameworld.com", 1) :=
  trust_accounting.2.2.2 [] "techgameworld.com" 1 rfl

/-- C9 (witness) — concrete instance: the single row an accepted
resolution writes into an empty store is valid. -/
theorem run_writes_only_valid_rows_witness :
    ({ url := "https://src.example/r", source := "S",
       domain := domainOf "https://src.example/r",
       first_seen := "t0", last_checked := "t0",
       final_url := "https://static.moonactive.net/r",
       final_domain := "static.moonactive.net", valid := true, score := 5,
       title := "" } : LinkRow).valid = true
    ∨ ({ url := "https://src.example/r", source := "S",
         domain := domainOf "https://src.example/r",
         first_seen := "t0", last_checked := "t0",
         final_url := "https://static.moonactive.net/r",
         final_domain := "static.moonactive.net", valid := true, score := 5,
         title := "" } : LinkRow) ∈ (⟨[], []⟩ : DBState).links :=
  (run_writes_only_valid_rows ⟨[], []⟩ "https://src.example/r" "S" "free spins" "t0"
    (some { status := 200, finalUrl := "https://static.moonactive.net/r",
            contentType := "text/html", text := "x", parsedTitle := none })).2
    _ (by decide)

/-! ## Stability of the character classes under ASCII case folding
(towards C7: re-parsing the lowercased authority). -/

theorem lowerC_beq_right {t : Char}
    (ht : t.toNat < 65 ∨ (90 < t.toNat ∧ t.toNat < 97) ∨ 122 < t.toNat) (c : Char) :
    (lowerC c == t) = (c == t) := by
  rw [Bool.eq_iff_iff, beq_iff_eq, beq_iff_eq]
  exact lowerC_eq_iff ht c

theorem lowerC_beq_left {t : Char}
    (ht : t.toNat < 65 ∨ (90 < t.toNat ∧ t.toNat < 97) ∨ 122 < t.toNat) (c : Char) :
    (t == lowerC c) = (t == c) := by
  rw [Bool.eq_iff_iff, beq_iff_eq, beq_iff_eq, eq_comm, @eq_comm _ t c]
  exact lowerC_eq_iff ht c

theorem isAsciiDigitC_lowerC (c : Char) : isAsciiDigitC (lowerC c) = isAsciiDigitC c := by
  have h := lowerC_toNat c
  rw [isAsciiDigitC, isAsciiDigitC, decide_eq_decide]
  by_cases hc : 65 ≤ c.toNat ∧ c.toNat ≤ 90
  · rw [if_pos hc] at h
    omega
  · rw [if_neg hc] at h
    omega

theorem isAsciiAlphaC_lowerC (c : Char) : isAsciiAlphaC (lowerC c) = isAsciiAlphaC c := by
  have h := lowerC_toNat c
  rw [isAsciiAlphaC, isAsciiAlphaC, decide_eq_decide]
  by_cases hc : 65 ≤ c.toNat ∧ c.toNat ≤ 90
  · rw [if_pos hc] at h
    omega
  · rw [if_neg hc] at h
    omega

theorem isHexDigitC_lowerC (c : Char) : isHexDigitC (lowerC c) = isHexDigitC c := by
  have h := lowerC_toNat c
  rw [Bool.eq_iff_iff]
  simp only [isHexDigitC, isAsciiDigitC, Bool.or_eq_true, decide_eq_true_eq]
  by_cases hc : 65 ≤ c.toNat ∧ c.toNat ≤ 90
  · rw [if_pos hc] at h
    omega
  · rw [if_neg hc] at h
    omega

theorem schemeCharC_lowerC (c : Char) : schemeCharC (lowerC c) = schemeCharC c := by
  rw [schemeCharC, schemeCharC, isAsciiAlphaC_lowerC, isAsciiDigitC_lowerC,
    lowerC_beq_right (by decide) c, lowerC_beq_right (by decide) c,
    lowerC_beq_right (by decide) c]

theorem netlocDelim_lowerC (c : Char) : netlocDelim (lowerC c) = netlocDelim c := by
  rw [netlocDelim, netlocDelim, lowerC_beq_right (by decide) c,
    lowerC_beq_right (by decide) c, lowerC_beq_right (by decide) c]

theorem cleanCharC_lowerC (c : Char) : cleanCharC (lowerC c) = cleanCharC c := by
  rw [cleanCharC, cleanCharC, lowerC_beq_right (by decide) c,
    lowerC_beq_right (by decide) c, lowerC_beq_right (by decide) c]

theorem schemeCharC_range {c : Char} (h : schemeCharC c = true) :
    43 ≤ c.toNat ∧ c.toNat ≤ 122 := by
  rw [schemeCharC] at h
  simp only [isAsciiAlphaC, isAsciiDigitC, Bool.or_eq_true, decide_eq_true_eq,
    beq_iff_eq] at h
  have h43 : ('+').toNat = 43 := by decide
  have h45 : ('-').toNat = 45 := by decide
  have h46 : ('.').toNat = 46 := by decide
  rcases h with ((((h | h) | h) | rfl) | rfl) | rfl <;> omega

theorem cleanCharC_of_range {c : Char} (h : 14 ≤ c.toNat) : cleanCharC c = true := by
  have h9 : ¬(c = '\t') := fun hc => by subst hc; simp at h
  have h13 : ¬(c = '\r') := fun hc => by subst hc; simp at h
  have h10 : ¬(c = '\n') := fun hc => by subst hc; simp at h
  simp [cleanCharC, h9, h13, h10]

theorem schemeCharC_clean {c : Char} (h : schemeCharC c = true) : cleanCharC c = true :=
  cleanCharC_of_range (by have := schemeCharC_range h; omega)

theorem schemeCharC_ne_colon {c : Char} (h : schemeCharC c = true) : ¬(c = ':') := by
  intro hc
  subst hc
  exact absurd h (by decide)

/-! ## Commutation of the list combinators with `map` -/

theorem all_map_stable (f : α → α) (p : α → Bool)
    (hf : ∀ c, p (f c) = p c) (s : List α) : (s.map f).all p = s.all p := by
  induction s with
  | nil => rfl
  | cons c rest ih => simp [hf, ih]

theorem contains_map_eq (f : Char → Char) (t : Char)
    (hf : ∀ c, f c = t ↔ c = t) (s : Str) : (s.map f).contains t = s.contains t := by
  rw [Bool.eq_iff_iff]
  show List.elem t (s.map f) = true ↔ List.elem t s = true
  rw [List.elem_iff, List.elem_iff, List.mem_map]
  constructor
  · rintro ⟨c, hc, hfc⟩
    rw [hf c] at hfc
    exact hfc ▸ hc
  · intro ht
    exact ⟨t, ht, (hf t).mpr rfl⟩

theorem contains_lowerC {t : Char}
    (ht : t.toNat < 65 ∨ (90 < t.toNat ∧ t.toNat < 97) ∨ 122 < t.toNat) (s : Str) :
    (s.map lowerC).contains t = s.contains t :=
  contains_map_eq lowerC t (fun c => lowerC_eq_iff ht c) s

theorem headD_map (g : α → β) (l : List α) (d : α) :
    (l.map g).headD (g d) = g (l.headD d) := by
  cases l <;> rfl

theorem getLastD_map (g : α → β) (l : List α) : ∀ d : α,
    (l.map g).getLastD (g d) = g (l.getLastD d) := by
  induction l with
  | nil => intro d; rfl
  | cons a l ih =>
    intro d
    rw [List.map_cons, List.getLastD_cons, List.getLastD_cons]
    exact ih a

theorem isEmpty_map (g : α → β) (l : List α) : (l.map g).isEmpty = l.isEmpty := by
  cases l <;> rfl

theorem idxOfEmpty_map (g : Str → Str) (hg : ∀ x, (g x).isEmpty = x.isEmpty)
    (l : List Str) : idxOfEmpty (l.map g) = idxOfEmpty l := by
  induction l with
  | nil => rfl
  | cons x rest ih =>
    rw [List.map_cons, idxOfEmpty, idxOfEmpty, hg x, ih]

theorem countP_isEmpty_map (g : Str → Str) (hg : ∀ x, (g x).isEmpty = x.isEmpty)
    (l : List Str) :
    (l.map g).countP (fun p => p.isEmpty) = l.countP (fun p => p.isEmpty) := by
  rw [List.countP_map]
  induction l with
  | nil => rfl
  | cons x rest ih =>
    rw [List.countP_cons, List.countP_cons, ih]
    simp [Function.comp, hg x]

theorem splitAll_map (sep : Char) (f : Char → Char)
    (hf : ∀ c, (f c == sep) = (c == sep)) (s : Str) :
    splitAll sep (s.map f) = (splitAll sep s).map (List.map f) := by
  induction s with
  | nil => rfl
  | cons c rest ih =>
    rw [List.map_cons, splitAll, splitAll, ih]
    rcases hs : splitAll sep rest with _ | ⟨h, t⟩
    · exact absurd hs (splitAll_ne_nil sep rest)
    · rw [List.map_cons, hf c]
      by_cases hc : (c == sep) = true
      · simp [hc]
      · have hcf : (c == sep) = false := by simpa using hc
        simp [hcf]

theorem headD_map_nil (g : Str → Str) (hg : g [] = []) (l : List Str) :
    (l.map g).headD [] = g (l.headD []) := by
  cases l <;> simp [hg]

theorem getLastD_map_nil (g : Str → Str) (hg : g [] = []) (l : List Str) :
    (l.map g).getLastD [] = g (l.getLastD []) := by
  calc (l.map g).getLastD [] = (l.map g).getLastD (g []) := by rw [hg]
    _ = g (l.getLastD []) := getLastD_map g l []

/-! ## Stability of the bracketed-host validation under case folding -/

theorem hextetOK_lowerC (s : Str) : hextetOK (s.map lowerC) = hextetOK s := by
  rw [hextetOK, hextetOK, all_map_stable lowerC _ isHexDigitC_lowerC,
    List.length_map, isEmpty_map]

theorem octetOK_lowerC (s : Str) : octetOK (s.map lowerC) = octetOK s := by
  by_cases hall : s.all isAsciiDigitC = true
  · have hfix : s.map lowerC = s := by
      apply map_fix_of_all
      intro x hx
      have hd : isAsciiDigitC x = true := List.all_eq_true.mp hall x hx
      rw [isAsciiDigitC, decide_eq_true_eq] at hd
      exact lowerC_fix (Or.inl (by omega))
    rw [hfix]
  · have hallf : s.all isAsciiDigitC = false := by simpa using hall
    have hallm : (s.map lowerC).all isAsciiDigitC = false := by
      rw [all_map_stable lowerC _ isAsciiDigitC_lowerC]
      exact hallf
    rw [octetOK, octetOK, hallf, hallm]
    simp

theorem isIPv4Text_lowerC (s : Str) : isIPv4Text (s.map lowerC) = isIPv4Text s := by
  simp only [isIPv4Text]
  rw [@contains_lowerC '/' (by decide) s, isEmpty_map,
    splitAll_map '.' lowerC (fun c => lowerC_beq_right (by decide) c),
    List.length_map, all_map_stable (List.map lowerC) octetOK octetOK_lowerC]

theorem v6PartsOK_lowerC (parts : List Str) :
    v6PartsOK (parts.map (List.map lowerC)) = v6PartsOK parts := by
  have hg : ∀ x : Str, (List.map lowerC x).isEmpty = x.isEmpty :=
    fun x => isEmpty_map lowerC x
  have hinner : ((parts.map (List.map lowerC)).drop 1).dropLast
      = ((parts.drop 1).dropLast).map (List.map lowerC) := by
    rw [← List.map_drop, ← List.map_dropLast]
  simp only [v6PartsOK, hinner, idxOfEmpty_map _ hg, List.length_map]
  rcases hidx : idxOfEmpty ((parts.drop 1).dropLast) with _ | j
  · simp only [headD_map_nil (List.map lowerC) rfl, getLastD_map_nil (List.map lowerC) rfl,
      isEmpty_map, all_map_stable (List.map lowerC) hextetOK hextetOK_lowerC]
  · simp only [headD_map_nil (List.map lowerC) rfl, getLastD_map_nil (List.map lowerC) rfl,
      isEmpty_map, ← List.map_drop, ← List.map_take,
      all_map_stable (List.map lowerC) hextetOK hextetOK_lowerC,
      countP_isEmpty_map (List.map lowerC) hg]

theorem isIPv6Addr_lowerC (addr : Str) : isIPv6Addr (addr.map lowerC) = isIPv6Addr addr := by
  have h2 : ∀ l : List Str, (l.map (List.map lowerC)).dropLast ++ [['0'], ['0']]
      = (l.dropLast ++ [['0'], ['0']]).map (List.map lowerC) := by
    intro l
    rw [List.map_append, ← List.map_dropLast]
    congr 1
  simp only [isIPv6Addr, isEmpty_map,
    splitAll_map ':' lowerC (fun c => lowerC_beq_right (by decide) c),
    List.length_map, getLastD_map_nil (List.map lowerC) rfl,
    @contains_lowerC '.' (by decide), isIPv4Text_lowerC, h2, v6PartsOK_lowerC]

theorem isIPv6Text_lowerC (s : Str) : isIPv6Text (s.map lowerC) = isIPv6Text s := by
  simp only [isIPv6Text, @contains_lowerC '/' (by decide)]
  have hsp := spanP_map_comm (fun c => !(c == '%')) lowerC
    (fun c => by
      show (!(lowerC c == '%')) = (!(c == '%'))
      rw [lowerC_beq_right (by decide) c]) s
  rcases h : spanP (fun c => !(c == '%')) s with ⟨addr, rest⟩
  rw [h] at hsp
  rcases rest with _ | ⟨d, scope⟩
  · simp only [List.map_nil] at hsp
    rw [hsp]
    show (!(List.contains s '/') && isIPv6Addr (addr.map lowerC))
        = (!(List.contains s '/') && isIPv6Addr addr)
    rw [isIPv6Addr_lowerC]
  · simp only [List.map_cons] at hsp
    rw [hsp]
    show (!(List.contains s '/')
          && (!(scope.map lowerC).isEmpty && !(scope.map lowerC).contains '%'
              && isIPv6Addr (addr.map lowerC)))
        = (!(List.contains s '/')
          && (!scope.isEmpty && !scope.contains '%' && isIPv6Addr addr))
    rw [isEmpty_map, @contains_lowerC '%' (by decide), isIPv6Addr_lowerC]

theorem ipvFutureOK_cons_lowerC (rest : Str) :
    ipvFutureOK ('v' :: rest.map lowerC) = ipvFutureOK ('v' :: rest) := by
  have hsp := spanP_map_comm isHexDigitC lowerC isHexDigitC_lowerC rest
  rcases h : spanP isHexDigitC rest with ⟨a, b⟩
  rw [h] at hsp
  rcases b with _ | ⟨d, tail⟩
  · simp only [List.map_nil] at hsp
    simp only [ipvFutureOK, hsp, h]
    simp
  · simp only [List.map_cons] at hsp
    simp only [ipvFutureOK, hsp, h]
    rw [isEmpty_map, isEmpty_map, lowerC_beq_right (by decide) d,
      @contains_lowerC '\n' (by decide) tail]

/-- A nonempty prefix piece of `str.split`: splitting `c :: rest` at a
separator other than `c` puts `c` at the head of the first piece. -/
theorem splitAll_headD_cons (sep c : Char) (rest : Str) (hc : (c == sep) = false) :
    (splitAll sep (c :: rest)).headD [] = c :: (splitAll sep rest).headD [] := by
  rw [splitAll]
  rcases hs : splitAll sep rest with _ | ⟨h, t⟩
  · exact absurd hs (splitAll_ne_nil sep rest)
  · simp [hc]

theorem hextetOK_head {s : Str} (h : hextetOK s = true) :
    s.isEmpty = false ∧ isHexDigitC (s.headD ' ') = true := by
  rw [hextetOK] at h
  simp only [Bool.and_eq_true, List.all_eq_true, Bool.not_eq_true',
    decide_eq_true_eq] at h
  rcases s with _ | ⟨c, t⟩
  · simp at h
  · exact ⟨rfl, h.1.1 c (by simp)⟩

/-- A valid hextet list has an empty head part or a head part that is a
hextet (hence starts with a hex digit). -/
theorem v6PartsOK_head {parts : List Str} (hOK : v6PartsOK parts = true) :
    (parts.headD []).isEmpty = true ∨ hextetOK (parts.headD []) = true := by
  by_cases hh : (parts.headD []).isEmpty = true
  · exact Or.inl hh
  right
  rcases parts with _ | ⟨q, qs⟩
  · exact absurd rfl hh
  simp only [v6PartsOK] at hOK
  rcases hidx : idxOfEmpty (((q :: qs).drop 1).dropLast) with _ | j
  · rw [hidx] at hOK
    simp only [Bool.and_eq_true, List.all_eq_true, decide_eq_true_eq,
      beq_iff_eq, Bool.not_eq_true'] at hOK
    exact hOK.2.2 q (by simp)
  · rw [hidx] at hOK
    simp only [Bool.and_eq_true, List.all_eq_true, decide_eq_true_eq,
      beq_iff_eq, Bool.not_eq_true', Bool.or_eq_true] at hOK
    have htake := hOK.2.2.1.2
    rw [if_neg hh] at htake
    exact htake q (by simp [List.take_succ_cons])

/-- A string accepted as an IPv6 address starts with `:` or a hex digit
(in particular never with `v` or `V`). -/
theorem isIPv6Addr_head {addr : Str} (h : isIPv6Addr addr = true) :
    ∃ c t, addr = c :: t ∧ (c = ':' ∨ isHexDigitC c = true) := by
  rcases addr with _ | ⟨c, t⟩
  · exact absurd h (by decide)
  refine ⟨c, t, rfl, ?_⟩
  by_cases hc : c = ':'
  · exact Or.inl hc
  right
  have hcb : (c == ':') = false := beq_eq_false_iff_ne.mpr hc
  have hhead := splitAll_headD_cons ':' c t hcb
  simp only [isIPv6Addr, Bool.and_eq_true, decide_eq_true_eq] at h
  obtain ⟨-, hlen, hif⟩ := h
  rcases hP : splitAll ':' (c :: t) with _ | ⟨P0, Ps⟩
  · exact absurd hP (splitAll_ne_nil _ _)
  rw [hP] at hhead hlen hif
  have hP0 : P0 = c :: (splitAll ':' t).headD [] := by simpa using hhead
  by_cases hdot : ((P0 :: Ps).getLastD []).contains '.' = true
  · rw [if_pos hdot] at hif
    have hv6 : v6PartsOK ((P0 :: Ps).dropLast ++ [['0'], ['0']]) = true := by
      simp only [Bool.and_eq_true] at hif
      exact hif.2
    rcases Ps with _ | ⟨P1, Ps2⟩
    · exact absurd hlen (by simp)
    have hhd : ((P0 :: P1 :: Ps2).dropLast ++ [['0'], ['0']]).headD [] = P0 := rfl
    rcases v6PartsOK_head hv6 with hemp | hhex
    · rw [hhd, hP0] at hemp
      exact absurd hemp (by simp)
    · rw [hhd, hP0] at hhex
      simpa using (hextetOK_head hhex).2
  · rw [if_neg hdot] at hif
    rcases v6PartsOK_head hif with hemp | hhex
    · rw [List.headD_cons, hP0] at hemp
      exact absurd hemp (by simp)
    · rw [List.headD_cons, hP0] at hhex
      simpa using (hextetOK_head hhex).2

theorem upToFirst_map_lowerC {sep : Char}
    (hsep : sep.toNat < 65 ∨ (90 < sep.toNat ∧ sep.toNat < 97) ∨ 122 < sep.toNat)
    (s : Str) : upToFirst sep (s.map lowerC) = (upToFirst sep s).map lowerC := by
  rw [upToFirst, upToFirst, spanP_map_comm _ lowerC (fun c => by
    show (!(lowerC c == sep)) = (!(c == sep))
    rw [lowerC_beq_right hsep c]) s]

theorem afterFirst_map_lowerC {sep : Char}
    (hsep : sep.toNat < 65 ∨ (90 < sep.toNat ∧ sep.toNat < 97) ∨ 122 < sep.toNat)
    (s : Str) : afterFirst sep (s.map lowerC) = (afterFirst sep s).map lowerC := by
  rw [afterFirst, afterFirst, spanP_map_comm _ lowerC (fun c => by
    show (!(lowerC c == sep)) = (!(c == sep))
    rw [lowerC_beq_right hsep c]) s]
  rcases h : spanP (fun c => !(c == sep)) s with ⟨a, b⟩
  rcases b with _ | ⟨d, r⟩
  · simp
  · simp

theorem bracketedHostOf_map_lowerC (nl : Str) :
    bracketedHostOf (nl.map lowerC) = (bracketedHostOf nl).map lowerC := by
  rw [bracketedHostOf, bracketedHostOf, afterFirst_map_lowerC (by decide),
    upToFirst_map_lowerC (by decide)]

/-- `_check_bracketed_host` still accepts after the netloc is lowercased.
(Not an equality: lowercasing can turn a rejected `V…` head into a `v…`
IPvFuture candidate; acceptance is what transports.) -/
theorem checkBracketedHost_lowerC {h : Str} (hok : checkBracketedHost h = none) :
    checkBracketedHost (h.map lowerC) = none := by
  by_cases hv : (h.headD ' ' == 'v') = true
  · rcases h with _ | ⟨c, t⟩
    · exact absurd hv (by decide)
    have hcv : c = 'v' := by simpa using hv
    subst hcv
    rw [checkBracketedHost, if_pos hv] at hok
    have hfut : ipvFutureOK ('v' :: t) = true := by
      by_cases hf : ipvFutureOK ('v' :: t) = true
      · exact hf
      · rw [if_neg hf] at hok
        exact absurd hok (by simp)
    rw [List.map_cons, show lowerC 'v' = 'v' from by decide, checkBracketedHost,
      if_pos (by simp), ipvFutureOK_cons_lowerC, if_pos hfut]
  · have hvf : ¬(h.headD ' ' == 'v') = true := hv
    rw [checkBracketedHost, if_neg hvf] at hok
    by_cases h4 : isIPv4Text h = true
    · rw [if_pos h4] at hok
      exact absurd hok (by simp)
    rw [if_neg h4] at hok
    by_cases h6 : isIPv6Text h = true
    · have hmap4 : isIPv4Text (h.map lowerC) = false := by
        rw [isIPv4Text_lowerC]
        simpa using h4
      have hmap6 : isIPv6Text (h.map lowerC) = true := by
        rw [isIPv6Text_lowerC]
        exact h6
      have haddr : ∃ c t, h = c :: t ∧ (c = ':' ∨ isHexDigitC c = true) := by
        have h6x := h6
        rw [isIPv6Text] at h6x
        simp only [Bool.and_eq_true] at h6x
        rcases hsp : spanP (fun c => !(c == '%')) h with ⟨addr, rest⟩
        rw [hsp] at h6x
        have hceq := spanP_append_eq (fun c => !(c == '%')) h
        rw [hsp] at hceq
        rcases rest with _ | ⟨d, scope⟩
        · obtain ⟨c, t, haeq, hcase⟩ := isIPv6Addr_head h6x.2
          exact ⟨c, t ++ [], by rw [← hceq, haeq]; simp, hcase⟩
        · have h6a : isIPv6Addr addr = true := by
            simp only [Bool.and_eq_true] at h6x
            exact h6x.2.2
          obtain ⟨c, t, haeq, hcase⟩ := isIPv6Addr_head h6a
          exact ⟨c, t ++ d :: scope, by rw [← hceq, haeq]; simp, hcase⟩
      obtain ⟨c, t, hh, hcase⟩ := haddr
      have hmapv : ((h.map lowerC).headD ' ' == 'v') = false := by
        rw [hh, List.map_cons, List.headD_cons, beq_eq_false_iff_ne]
        intro hlc
        have h118 : (lowerC c).toNat = 118 := by rw [hlc]; rfl
        have hl := lowerC_toNat c
        rcases hcase with rfl | hhex
        · exact absurd hlc (by decide)
        · rw [isHexDigitC] at hhex
          simp only [isAsciiDigitC, Bool.or_eq_true, decide_eq_true_eq] at hhex
          by_cases hcu : 65 ≤ c.toNat ∧ c.toNat ≤ 90
          · rw [if_pos hcu] at hl
            omega
          · rw [if_neg hcu] at hl
            omega
      rw [checkBracketedHost, if_neg (by rw [hmapv]; exact Bool.false_ne_true),
        if_neg (by rw [hmap4]; exact Bool.false_ne_true), if_pos hmap6]
    · rw [if_neg h6] at hok
      exact absurd hok (by simp)

/-! ## Component provenance through the `urlsplit` pipeline -/

theorem spanP_fst_sub (p : Char → Bool) (s : Str) : ∀ x ∈ (spanP p s).1, x ∈ s := by
  intro x hx
  have h := spanP_append_eq p s
  rw [← h]
  exact List.mem_append_left _ hx

theorem spanP_snd_sub (p : Char → Bool) (s : Str) : ∀ x ∈ (spanP p s).2, x ∈ s := by
  intro x hx
  have h := spanP_append_eq p s
  rw [← h]
  exact List.mem_append_right _ hx

theorem splitFirst_no_sep (sep : Char) (s : Str) (h : ∀ c ∈ s, ¬(c = sep)) :
    splitFirst sep s = (s, []) := by
  rw [splitFirst, spanP_all _ s (fun c hc => by simpa using h c hc)]

theorem splitFirst_append (sep : Char) (a r : Str) (ha : ∀ c ∈ a, ¬(c = sep)) :
    splitFirst sep (a ++ sep :: r) = (a, r) := by
  rw [splitFirst, spanP_append _ a sep r (fun c hc => by simpa using ha c hc) (by simp)]

theorem splitFirst_fst_facts (sep : Char) (s : Str) :
    (∀ x ∈ (splitFirst sep s).1, x ∈ s) ∧ (∀ x ∈ (splitFirst sep s).1, ¬(x = sep)) := by
  rcases h : spanP (fun c => !(c == sep)) s with ⟨a, b⟩
  have hsub : ∀ x ∈ a, x ∈ s := by
    intro x hx
    have h2 := spanP_fst_sub (fun c => !(c == sep)) s
    rw [h] at h2
    exact h2 x hx
  have hall : ∀ x ∈ a, ¬(x = sep) := by
    intro x hx
    have h2 := spanP_fst_all (fun c => !(c == sep)) s
    rw [h] at h2
    simpa using h2 x hx
  rw [splitFirst, h]
  rcases b with _ | ⟨d, r⟩
  · exact ⟨hsub, hall⟩
  · exact ⟨hsub, hall⟩

theorem splitScheme_cases (s : Str) :
    (splitScheme s).1 = [] ∨ (headAlpha (splitScheme s).1 = true
      ∧ (splitScheme s).1.all schemeCharC = true
      ∧ (splitScheme s).1.map lowerC = (splitScheme s).1) := by
  rcases h : spanP (fun c => !(c == ':')) s with ⟨pre, rest⟩
  rw [splitScheme, h]
  rcases rest with _ | ⟨d, r⟩
  · exact Or.inl rfl
  · dsimp only
    by_cases hc : (headAlpha pre && pre.all schemeCharC) = true
    · rw [if_pos hc]
      right
      simp only [Bool.and_eq_true] at hc
      refine ⟨?_, ?_, ?_⟩
      · rcases pre with _ | ⟨p0, ps⟩
        · exact absurd hc.1 (by decide)
        · rw [List.map_cons]
          show isAsciiAlphaC (lowerC p0) = true
          rw [isAsciiAlphaC_lowerC]
          exact hc.1
      · rw [all_map_stable lowerC _ schemeCharC_lowerC]
        exact hc.2
      · rw [List.map_map]
        exact List.map_congr_left (fun x _ => lowerC_idem x)
    · rw [if_neg hc]
      exact Or.inl rfl

theorem splitScheme_rest_sub (s : Str) : ∀ x ∈ (splitScheme s).2, x ∈ s := by
  rcases h : spanP (fun c => !(c == ':')) s with ⟨pre, rest⟩
  rw [splitScheme, h]
  rcases rest with _ | ⟨d, r⟩
  · exact fun x hx => hx
  · dsimp only
    by_cases hc : (headAlpha pre && pre.all schemeCharC) = true
    · rw [if_pos hc]
      intro x hx
      have hsub := spanP_snd_sub (fun c => !(c == ':')) s
      rw [h] at hsub
      exact hsub x (by simp [hx])
    · rw [if_neg hc]
      exact fun x hx => hx

theorem splitScheme_append (scheme r : Str)
    (hhead : headAlpha scheme = true) (hchars : scheme.all schemeCharC = true)
    (hlow : scheme.map lowerC = scheme) :
    splitScheme (scheme ++ ':' :: r) = (scheme, r) := by
  rw [splitScheme, spanP_append _ scheme ':' r
    (fun c hc => by simpa using schemeCharC_ne_colon (List.all_eq_true.mp hchars c hc))
    (by simp)]
  dsimp only
  rw [if_pos (by rw [hhead, hchars]; rfl), hlow]

theorem take_two_slash {s : Str} (h : s.take 2 = ['/', '/']) :
    s = '/' :: '/' :: s.drop 2 := by
  rcases s with _ | ⟨a, _ | ⟨b, r⟩⟩
  · simp at h
  · simp at h
  · simp only [List.take] at h
    simp only [List.cons.injEq] at h
    obtain ⟨rfl, rfl, -⟩ := h
    rfl

theorem splitNetloc_ok_facts {s nl rest : Str} (h : splitNetloc s = .ok (nl, rest)) :
    (∀ c ∈ nl, netlocDelim c = false)
  ∧ (∀ c ∈ nl, c ∈ s)
  ∧ bracketMismatch nl = false
  ∧ ((nl.contains '[' && nl.contains ']') = true →
      checkBracketedHost (bracketedHostOf nl) = none) := by
  rw [splitNetloc] at h
  by_cases ht : s.take 2 = ['/', '/']
  · rw [if_pos ht] at h
    rcases hsp : spanP (fun c => !netlocDelim c) (s.drop 2) with ⟨nl0, rest0⟩
    rw [hsp] at h
    dsimp only at h
    have hdelim : ∀ c ∈ nl0, netlocDelim c = false := by
      intro c hc
      have h2 := spanP_fst_all (fun c => !netlocDelim c) (s.drop 2)
      rw [hsp] at h2
      simpa using h2 c hc
    have hmem : ∀ c ∈ nl0, c ∈ s := by
      intro c hc
      have h2 := spanP_fst_sub (fun c => !netlocDelim c) (s.drop 2)
      rw [hsp] at h2
      exact List.mem_of_mem_drop (h2 c hc)
    by_cases hbm : bracketMismatch nl0 = true
    · rw [if_pos hbm] at h
      exact Except.noConfusion h
    · rw [if_neg hbm] at h
      have hbmf : bracketMismatch nl0 = false := by simpa using hbm
      by_cases hbr : (nl0.contains '[' && nl0.contains ']') = true
      · rw [if_pos hbr] at h
        rcases hch : checkBracketedHost (bracketedHostOf nl0) with _ | e
        · rw [hch] at h
          dsimp only at h
          simp only [Except.ok.injEq, Prod.mk.injEq] at h
          obtain ⟨rfl, rfl⟩ := h
          exact ⟨hdelim, hmem, hbmf, fun _ => hch⟩
        · rw [hch] at h
          exact Except.noConfusion h
      · rw [if_neg hbr] at h
        simp only [Except.ok.injEq, Prod.mk.injEq] at h
        obtain ⟨rfl, rfl⟩ := h
        exact ⟨hdelim, hmem, hbmf, fun hx => absurd hx hbr⟩
  · rw [if_neg ht] at h
    simp only [Except.ok.injEq, Prod.mk.injEq] at h
    obtain ⟨rfl, rfl⟩ := h
    refine ⟨fun c hc => absurd hc (by simp), fun c hc => absurd hc (by simp),
      by decide, fun hx => absurd hx (by decide)⟩

theorem splitParamsL_stable {s : Str}
    (hdis : (∀ c ∈ s, ¬(c = ';')) ∨
      ∃ a b, s = a ++ '/' :: b ∧ (∀ x ∈ b, ¬(x = '/')) ∧ (∀ x ∈ b, ¬(x = ';'))) :
    splitParamsL s = (s, []) := by
  rcases hdis with hno | ⟨a, b, rfl, hb1, hb2⟩
  · rcases hsl : splitLast '/' s with _ | ⟨a, b⟩
    · rw [splitParamsL, hsl]
      dsimp only
      rw [spanP_all _ s (fun c hc => by simpa using hno c hc)]
    · obtain ⟨hseq, -⟩ := splitLast_sound '/' s a b hsl
      have hbno : ∀ c ∈ b, ¬(c = ';') := fun c hc => hno c (by rw [hseq]; simp [hc])
      rw [splitParamsL, hsl]
      dsimp only
      rw [spanP_all _ b (fun c hc => by simpa using hbno c hc)]
  · rw [splitParamsL, splitLast_append '/' a b hb1]
    dsimp only
    rw [spanP_all _ b (fun c hc => by simpa using hb2 c hc)]

theorem splitParamsL_fst_sub (s : Str) : ∀ x ∈ (splitParamsL s).1, x ∈ s := by
  rcases hsl : splitLast '/' s with _ | ⟨a, b⟩
  · rcases hsp : spanP (fun c => !(c == ';')) s with ⟨u1, r⟩
    rw [splitParamsL, hsl]
    dsimp only
    rw [hsp]
    rcases r with _ | ⟨d, rr⟩
    · exact fun x hx => hx
    · intro x hx
      have h2 := spanP_fst_sub (fun c => !(c == ';')) s
      rw [hsp] at h2
      exact h2 x hx
  · obtain ⟨hseq, -⟩ := splitLast_sound '/' s a b hsl
    rcases hsp : spanP (fun c => !(c == ';')) b with ⟨b1, r⟩
    rw [splitParamsL, hsl]
    dsimp only
    rw [hsp]
    rcases r with _ | ⟨d, rr⟩
    · exact fun x hx => hx
    · intro x hx
      rw [hseq]
      rcases List.mem_append.mp hx with hx | hx
      · exact List.mem_append_left _ hx
      · rcases List.mem_cons.mp hx with rfl | hx
        · exact List.mem_append_right _ (by simp)
        · have hsub := spanP_fst_sub (fun c => !(c == ';')) b
          rw [hsp] at hsub
          exact List.mem_append_right _ (by simp [hsub x hx])

theorem preClean_clean (s : Str) : ∀ x ∈ preClean s, cleanCharC x = true := by
  intro x hx
  rw [preClean, removeUnsafe] at hx
  exact (List.mem_filter.mp hx).2

theorem preClean_cons {c : Char} {t : Str} (hh : ¬(c.toNat ≤ 32))
    (hc : ∀ x ∈ c :: t, cleanCharC x = true) : preClean (c :: t) = c :: t := by
  rw [preClean, lstripC0, List.dropWhile_cons, if_neg (by simpa using hh), removeUnsafe,
    List.filter_eq_self.mpr hc]

theorem map_lowerC_idem (s : Str) : (s.map lowerC).map lowerC = s.map lowerC := by
  rw [List.map_map]
  exact List.map_congr_left (fun x _ => lowerC_idem x)

/-- Every character `urlencode` emits is quote-safe output, `+`, `%`,
`=` or `&`. -/
theorem urlencodeL_chars (qs : List (Str × Str)) :
    ∀ x ∈ urlencodeL qs, alwaysSafeC x = true ∨ x = '+' ∨ x = '%' ∨ x = '=' ∨ x = '&' := by
  induction qs with
  | nil => intro x hx; simp [urlencodeL, intercalateAmp] at hx
  | cons kv rest ih =>
    rcases rest with _ | ⟨kv2, rest2⟩
    · intro x hx
      rw [urlencodeL, List.map_cons, List.map_nil, intercalateAmp] at hx
      rcases List.mem_append.mp hx with hx | hx
      · rcases quotePlus_chars kv.1 x hx with h | h | h <;> tauto
      · rcases List.mem_cons.mp hx with rfl | hx
        · tauto
        · rcases quotePlus_chars kv.2 x hx with h | h | h <;> tauto
    · intro x hx
      rw [urlencodeL, List.map_cons, List.map_cons, intercalateAmp] at hx
      rcases List.mem_append.mp hx with hx | hx
      · rcases List.mem_append.mp hx with hx | hx
        · rcases quotePlus_chars kv.1 x hx with h | h | h <;> tauto
        · rcases List.mem_cons.mp hx with rfl | hx
          · tauto
          · rcases quotePlus_chars kv.2 x hx with h | h | h <;> tauto
      · rcases List.mem_cons.mp hx with rfl | hx
        · tauto
        · exact ih x (by rw [urlencodeL, List.map_cons]; exact hx)

/-- The query `normalize` re-serializes is clean and free of the `#` and
`?` delimiters, so it survives the fragment and query splits intact. -/
theorem urlencodeL_char_facts (qs : List (Str × Str)) :
    ∀ x ∈ urlencodeL qs, cleanCharC x = true ∧ ¬(x = '#') ∧ ¬(x = '?') := by
  intro x hx
  rcases urlencodeL_chars qs x hx with h | rfl | rfl | rfl | rfl
  · have hra := alwaysSafe_ranges h
    have h35 : ('#').toNat = 35 := by decide
    have h63 : ('?').toNat = 63 := by decide
    refine ⟨cleanCharC_of_range ?_, fun he => ?_, fun he => ?_⟩
    · rcases hra with h | h | h | h | h | h | h <;> omega
    · subst he
      rcases hra with h | h | h | h | h | h | h <;> omega
    · subst he
      rcases hra with h | h | h | h | h | h | h <;> omega
  · exact ⟨by decide, by decide, by decide⟩
  · exact ⟨by decide, by decide, by decide⟩
  · exact ⟨by decide, by decide, by decide⟩
  · exact ⟨by decide, by decide, by decide⟩

theorem splitNetloc_rest_sub {s nl rest : Str} (h : splitNetloc s = .ok (nl, rest)) :
    ∀ x ∈ rest, x ∈ s := by
  rw [splitNetloc] at h
  by_cases ht : s.take 2 = ['/', '/']
  · rw [if_pos ht] at h
    rcases hsp : spanP (fun c => !netlocDelim c) (s.drop 2) with ⟨nl0, rest0⟩
    rw [hsp] at h
    dsimp only at h
    have hmem : ∀ x ∈ rest0, x ∈ s := by
      intro x hx
      have h2 := spanP_snd_sub (fun c => !netlocDelim c) (s.drop 2)
      rw [hsp] at h2
      exact List.mem_of_mem_drop (h2 x hx)
    by_cases hbm : bracketMismatch nl0 = true
    · rw [if_pos hbm] at h
      exact Except.noConfusion h
    · rw [if_neg hbm] at h
      by_cases hbr : (nl0.contains '[' && nl0.contains ']') = true
      · rw [if_pos hbr] at h
        rcases hch : checkBracketedHost (bracketedHostOf nl0) with _ | e
        · rw [hch] at h
          dsimp only at h
          simp only [Except.ok.injEq, Prod.mk.injEq] at h
          obtain ⟨rfl, rfl⟩ := h
          exact hmem
        · rw [hch] at h
          exact Except.noConfusion h
      · rw [if_neg hbr] at h
        simp only [Except.ok.injEq, Prod.mk.injEq] at h
        obtain ⟨rfl, rfl⟩ := h
        exact hmem
  · rw [if_neg ht] at h
    simp only [Except.ok.injEq, Prod.mk.injEq] at h
    obtain ⟨rfl, rfl⟩ := h
    exact fun x hx => hx

/-- The path component `_splitparams` returns has no `;` after its last
`/` (or none at all when it has no `/`). -/
theorem splitParamsL_fst_shape (s : Str) :
    (∀ c ∈ (splitParamsL s).1, ¬(c = ';')) ∨
    ∃ a b, (splitParamsL s).1 = a ++ '/' :: b
      ∧ (∀ x ∈ b, ¬(x = '/')) ∧ (∀ x ∈ b, ¬(x = ';')) := by
  rcases hsl : splitLast '/' s with _ | ⟨a, b⟩
  · rcases hsp : spanP (fun c => !(c == ';')) s with ⟨u1, r⟩
    rw [splitParamsL, hsl]
    dsimp only
    rw [hsp]
    rcases r with _ | ⟨d, rr⟩
    · left
      intro c hc
      have hfeq := spanP_append_eq (fun c => !(c == ';')) s
      rw [hsp] at hfeq
      simp only [List.append_nil] at hfeq
      have h2 := spanP_fst_all (fun c => !(c == ';')) s
      rw [hsp] at h2
      have hc2 : c ∈ u1 := by rw [hfeq]; exact hc
      simpa using h2 c hc2
    · left
      intro c hc
      have h2 := spanP_fst_all (fun c => !(c == ';')) s
      rw [hsp] at h2
      simpa using h2 c hc
  · obtain ⟨hseq, hbne⟩ := splitLast_sound '/' s a b hsl
    rcases hsp : spanP (fun c => !(c == ';')) b with ⟨b1, r⟩
    rw [splitParamsL, hsl]
    dsimp only
    rw [hsp]
    rcases r with _ | ⟨d, rr⟩
    · right
      refine ⟨a, b, hseq, hbne, ?_⟩
      intro x hx
      have hfeq := spanP_append_eq (fun c => !(c == ';')) b
      rw [hsp] at hfeq
      simp only [List.append_nil] at hfeq
      have h2 := spanP_fst_all (fun c => !(c == ';')) b
      rw [hsp] at h2
      have hx2 : x ∈ b1 := by rw [hfeq]; exact hx
      simpa using h2 x hx2
    · right
      refine ⟨a, b1, rfl, ?_, ?_⟩
      · intro x hx
        have hsub := spanP_fst_sub (fun c => !(c == ';')) b
        rw [hsp] at hsub
        exact hbne x (hsub x hx)
      · intro x hx
        have h2 := spanP_fst_all (fun c => !(c == ';')) b
        rw [hsp] at h2
        simpa using h2 x hx

/-- Everything `urlparse` guarantees about the components of a successful
parse: scheme shape, netloc free of delimiters and validated, path free
of `#`/`?`, all characters clean, and the params-split invariant. -/
theorem urlparseL_ok_facts {u : Str} {p : UrlParts} (h : urlparseL u = .ok p) :
    (p.scheme = [] ∨ (headAlpha p.scheme = true ∧ p.scheme.all schemeCharC = true
      ∧ p.scheme.map lowerC = p.scheme))
  ∧ (∀ c ∈ p.netloc, netlocDelim c = false)
  ∧ (∀ c ∈ p.netloc, cleanCharC c = true)
  ∧ bracketMismatch p.netloc = false
  ∧ ((p.netloc.contains '[' && p.netloc.contains ']') = true →
      checkBracketedHost (bracketedHostOf p.netloc) = none)
  ∧ (∀ c ∈ p.path, cleanCharC c = true)
  ∧ (∀ c ∈ p.path, ¬(c = '#'))
  ∧ (∀ c ∈ p.path, ¬(c = '?'))
  ∧ (uses_params.contains p.scheme = true →
      (∀ c ∈ p.path, ¬(c = ';')) ∨
      ∃ a b, p.path = a ++ '/' :: b ∧ (∀ x ∈ b, ¬(x = '/')) ∧ (∀ x ∈ b, ¬(x = ';'))) := by
  simp only [urlparseL] at h
  rcases hsn : splitNetloc (splitScheme (preClean u)).2 with e | ⟨nl, r2⟩
  · rw [hsn] at h
    exact Except.noConfusion h
  rw [hsn] at h
  dsimp only at h
  have hnlf := splitNetloc_ok_facts hsn
  have hrest := splitNetloc_rest_sub hsn
  have hnl_clean : ∀ c ∈ nl, cleanCharC c = true :=
    fun c hc => preClean_clean u c (splitScheme_rest_sub (preClean u) c (hnlf.2.1 c hc))
  have hfr := splitFirst_fst_facts '#' r2
  have hqr := splitFirst_fst_facts '?' (splitFirst '#' r2).1
  have hq_clean : ∀ c ∈ (splitFirst '?' (splitFirst '#' r2).1).1, cleanCharC c = true :=
    fun c hc => preClean_clean u c
      (splitScheme_rest_sub (preClean u) c (hrest c (hfr.1 c (hqr.1 c hc))))
  have hq_hash : ∀ c ∈ (splitFirst '?' (splitFirst '#' r2).1).1, ¬(c = '#') :=
    fun c hc => hfr.2 c (hqr.1 c hc)
  have hq_q : ∀ c ∈ (splitFirst '?' (splitFirst '#' r2).1).1, ¬(c = '?') := hqr.2
  by_cases hcond : uses_params.contains (splitScheme (preClean u)).1
      ∧ ';' ∈ (splitFirst '?' (splitFirst '#' r2).1).1
  · rw [if_pos hcond] at h
    obtain rfl := (Except.ok.inj h).symm
    have hps := splitParamsL_fst_sub (splitFirst '?' (splitFirst '#' r2).1).1
    refine ⟨splitScheme_cases (preClean u), hnlf.1, hnl_clean, hnlf.2.2.1, hnlf.2.2.2,
      fun c hc => hq_clean c (hps c hc), fun c hc => hq_hash c (hps c hc),
      fun c hc => hq_q c (hps c hc),
      fun _ => splitParamsL_fst_shape (splitFirst '?' (splitFirst '#' r2).1).1⟩
  · rw [if_neg hcond] at h
    obtain rfl := (Except.ok.inj h).symm
    refine ⟨splitScheme_cases (preClean u), hnlf.1, hnl_clean, hnlf.2.2.1, hnlf.2.2.2,
      hq_clean, hq_hash, hq_q, ?_⟩
    intro hup
    left
    intro c hc hceq
    subst hceq
    exact hcond ⟨hup, hc⟩

/-! ## Re-parsing a serialized URL (towards C7) -/

theorem splitNetloc_marker (netloc rest : Str)
    (hnd : ∀ c ∈ netloc, netlocDelim c = false)
    (hbm : bracketMismatch netloc = false)
    (hbh : (netloc.contains '[' && netloc.contains ']') = true →
      checkBracketedHost (bracketedHostOf netloc) = none) :
    splitNetloc ('/' :: '/' :: (netloc ++ '/' :: rest)) = .ok (netloc, '/' :: rest) := by
  rw [splitNetloc, if_pos (by rfl)]
  simp only [List.drop_succ_cons, List.drop_zero]
  rw [spanP_append _ netloc '/' rest (fun c hc => by simpa using hnd c hc) (by decide)]
  dsimp only
  rw [if_neg (by rw [hbm]; exact Bool.false_ne_true)]
  by_cases hbr : (netloc.contains '[' && netloc.contains ']') = true
  · rw [if_pos hbr, hbh hbr]
  · rw [if_neg hbr]

theorem splitNetloc_nomarker (s : Str) (h : s.take 2 ≠ ['/', '/']) :
    splitNetloc s = .ok ([], s) := by
  rw [splitNetloc, if_neg h]

/-- Re-parsing `scheme:...R...` when the scheme is well-formed, the rest
splits its netloc as given, and the path and query components carry no
stray delimiters, recovers exactly the components. -/
theorem urlparseL_reassemble (scheme netloc P query R : Str)
    (hshead : headAlpha scheme = true)
    (hschars : scheme.all schemeCharC = true)
    (hslow : scheme.map lowerC = scheme)
    (hRclean : ∀ c ∈ R, cleanCharC c = true)
    (hsn2 : splitNetloc R = .ok (netloc, P ++ (if query ≠ [] then '?' :: query else [])))
    (hPh : ∀ c ∈ P, ¬(c = '#'))
    (hPq : ∀ c ∈ P, ¬(c = '?'))
    (hqh : ∀ c ∈ query, ¬(c = '#'))
    (hsplitP : uses_params.contains scheme = true → ';' ∈ P → splitParamsL P = (P, [])) :
    urlparseL (scheme ++ ':' :: R) = .ok ⟨scheme, netloc, P, [], query, []⟩ := by
  rcases scheme with _ | ⟨s0, st⟩
  · exact absurd hshead (by decide)
  have hs0 : isAsciiAlphaC s0 = true := hshead
  have hs0n : ¬(s0.toNat ≤ 32) := by
    rw [isAsciiAlphaC, decide_eq_true_eq] at hs0
    omega
  have hwclean : ∀ x ∈ (s0 :: st) ++ ':' :: R, cleanCharC x = true := by
    intro x hx
    rcases List.mem_append.mp hx with hx | hx
    · exact schemeCharC_clean (List.all_eq_true.mp hschars x hx)
    · rcases List.mem_cons.mp hx with rfl | hx
      · decide
      · exact hRclean x hx
  have hw1 : preClean ((s0 :: st) ++ ':' :: R) = (s0 :: st) ++ ':' :: R := by
    have h2 : preClean (s0 :: (st ++ ':' :: R)) = s0 :: (st ++ ':' :: R) :=
      preClean_cons hs0n (by
        intro x hx
        apply hwclean
        simpa using hx)
    simpa using h2
  have hw2 : splitScheme ((s0 :: st) ++ ':' :: R) = (s0 :: st, R) :=
    splitScheme_append (s0 :: st) R hshead hschars hslow
  have hfr : splitFirst '#' (P ++ (if query ≠ [] then '?' :: query else []))
      = (P ++ (if query ≠ [] then '?' :: query else []), []) := by
    apply splitFirst_no_sep
    intro c hc
    rcases List.mem_append.mp hc with hc | hc
    · exact hPh c hc
    · by_cases hq : query ≠ []
      · rw [if_pos hq] at hc
        rcases List.mem_cons.mp hc with rfl | hc
        · decide
        · exact hqh c hc
      · rw [if_neg hq] at hc
        simp at hc
  have hqr : splitFirst '?' (P ++ (if query ≠ [] then '?' :: query else [])) = (P, query) := by
    by_cases hq : query ≠ []
    · rw [if_pos hq]
      exact splitFirst_append '?' P query hPq
    · have hqe : query = [] := by simpa using hq
      rw [if_neg hq, List.append_nil, hqe]
      exact splitFirst_no_sep '?' P hPq
  simp only [urlparseL]
  rw [hw1, hw2]
  dsimp only
  rw [hsn2]
  dsimp only
  rw [hfr]
  dsimp only
  rw [hqr]
  dsimp only
  by_cases hcp : uses_params.contains (s0 :: st) = true ∧ ';' ∈ P
  · rw [if_pos hcp, hsplitP hcp.1 hcp.2]
  · rw [if_neg hcp]

/-- Core of C7: a URL serialized by `urlunsplit` from well-formed
components re-parses to the same components (up to the `/`-completion of
the path), provided the excluded empty-netloc-with-`//`-path case does
not occur; the re-serialization of the re-parsed components reproduces
the same string. -/
theorem urlparseL_unsplit_core
    (scheme netloc path query : Str)
    (hsne : scheme ≠ [])
    (hshead : headAlpha scheme = true)
    (hschars : scheme.all schemeCharC = true)
    (hslow : scheme.map lowerC = scheme)
    (hnd : ∀ c ∈ netloc, netlocDelim c = false)
    (hnc : ∀ c ∈ netloc, cleanCharC c = true)
    (hbm : bracketMismatch netloc = false)
    (hbh : (netloc.contains '[' && netloc.contains ']') = true →
      checkBracketedHost (bracketedHostOf netloc) = none)
    (hpne : path ≠ [])
    (hpc : ∀ c ∈ path, cleanCharC c = true)
    (hph : ∀ c ∈ path, ¬(c = '#'))
    (hpq : ∀ c ∈ path, ¬(c = '?'))
    (hqc : ∀ c ∈ query, cleanCharC c = true)
    (hqh : ∀ c ∈ query, ¬(c = '#'))
    (hparams : uses_params.contains scheme = true →
      (∀ c ∈ path, ¬(c = ';')) ∨
      ∃ a b, path = a ++ '/' :: b ∧ (∀ x ∈ b, ¬(x = '/')) ∧ (∀ x ∈ b, ¬(x = ';')))
    (hexc : ¬(netloc = [] ∧ path.take 2 = ['/', '/'])) :
    ∃ path2, path2 ≠ []
      ∧ urlparseL (urlunsplitL scheme netloc path query []) =
          .ok ⟨scheme, netloc, path2, [], query, []⟩
      ∧ urlunsplitL scheme netloc path2 query [] = urlunsplitL scheme netloc path query [] := by
  have hunsplit : ∀ pth : Str, urlunsplitL scheme netloc pth query []
      = scheme ++ ':' :: ((if netloc ≠ [] ∨ (scheme ≠ [] ∧ uses_netloc.contains scheme = true
            ∧ pth.take 2 ≠ ['/', '/']) then
          ('/' :: '/' :: netloc) ++ (if pth ≠ [] ∧ pth.head? ≠ some '/' then '/' :: pth else pth)
        else pth) ++ (if query ≠ [] then '?' :: query else [])) := by
    intro pth
    simp only [urlunsplitL]
    by_cases hq : query ≠ []
    · rw [if_neg (fun hk : ([] : Str) ≠ [] => hk rfl), if_pos hq, if_pos hsne,
        if_pos hq, List.append_assoc, List.cons_append]
    · rw [if_neg (fun hk : ([] : Str) ≠ [] => hk rfl), if_neg hq, if_pos hsne,
        if_neg hq, List.append_nil]
  by_cases hcnd : netloc ≠ [] ∨ (scheme ≠ [] ∧ uses_netloc.contains scheme = true
      ∧ path.take 2 ≠ ['/', '/'])
  · rcases path with _ | ⟨p0, pt⟩
    · exact absurd rfl hpne
    by_cases hp0 : p0 = '/'
    · subst hp0
      refine ⟨'/' :: pt, by simp, ?_, rfl⟩
      rw [hunsplit ('/' :: pt), if_pos hcnd,
        if_neg (fun hk : ('/' :: pt ≠ [] ∧ ('/' :: pt).head? ≠ some '/') => hk.2 rfl),
        List.append_assoc]
      simp only [List.cons_append]
      refine urlparseL_reassemble scheme netloc ('/' :: pt) query
        ('/' :: '/' :: (netloc ++ '/' :: (pt ++ (if query ≠ [] then '?' :: query else []))))
        hshead hschars hslow ?_
        (splitNetloc_marker netloc (pt ++ (if query ≠ [] then '?' :: query else []))
          hnd hbm hbh)
        hph hpq hqh (fun hup _ => splitParamsL_stable (hparams hup))
      intro c hc
      rcases List.mem_cons.mp hc with rfl | hc
      · decide
      rcases List.mem_cons.mp hc with rfl | hc
      · decide
      rcases List.mem_append.mp hc with hc | hc
      · exact hnc c hc
      rcases List.mem_cons.mp hc with rfl | hc
      · decide
      rcases List.mem_append.mp hc with hc | hc
      · exact hpc c (by simp [hc])
      by_cases hq : query ≠ []
      · rw [if_pos hq] at hc
        rcases List.mem_cons.mp hc with rfl | hc
        · decide
        · exact hqc c hc
      · rw [if_neg hq] at hc
        simp at hc
    · refine ⟨'/' :: p0 :: pt, by simp, ?_, ?_⟩
      · rw [hunsplit (p0 :: pt), if_pos hcnd,
          if_pos (⟨by simp, by simp [hp0]⟩ :
            p0 :: pt ≠ [] ∧ (p0 :: pt).head? ≠ some '/'),
          List.append_assoc]
        simp only [List.cons_append]
        refine urlparseL_reassemble scheme netloc ('/' :: p0 :: pt) query
          ('/' :: '/' :: (netloc ++ '/' :: p0 :: (pt ++ (if query ≠ [] then '?' :: query else []))))
          hshead hschars hslow ?_
          (splitNetloc_marker netloc (p0 :: (pt ++ (if query ≠ [] then '?' :: query else [])))
            hnd hbm hbh)
          ?_ ?_ hqh ?_
        · intro c hc
          rcases List.mem_cons.mp hc with rfl | hc
          · decide
          rcases List.mem_cons.mp hc with rfl | hc
          · decide
          rcases List.mem_append.mp hc with hc | hc
          · exact hnc c hc
          rcases List.mem_cons.mp hc with rfl | hc
          · decide
          rcases List.mem_cons.mp hc with rfl | hc
          · exact hpc _ (by simp)
          rcases List.mem_append.mp hc with hc | hc
          · exact hpc c (by simp [hc])
          by_cases hq : query ≠ []
          · rw [if_pos hq] at hc
            rcases List.mem_cons.mp hc with rfl | hc
            · decide
            · exact hqc c hc
          · rw [if_neg hq] at hc
            simp at hc
        · intro c hc
          rcases List.mem_cons.mp hc with rfl | hc
          · decide
          · exact hph c hc
        · intro c hc
          rcases List.mem_cons.mp hc with rfl | hc
          · decide
          · exact hpq c hc
        · intro hup hsem
          rcases hparams hup with hno | ⟨a, b, heq, hb1, hb2⟩
          · apply splitParamsL_stable
            left
            intro c hc
            rcases List.mem_cons.mp hc with rfl | hc
            · decide
            · exact hno c hc
          · apply splitParamsL_stable
            right
            exact ⟨'/' :: a, b, by rw [heq]; rfl, hb1, hb2⟩
      · rw [hunsplit ('/' :: p0 :: pt), hunsplit (p0 :: pt)]
        rcases hcnd with hn | ⟨h1, h2, h3⟩
        · have hc1 : netloc ≠ [] ∨ (scheme ≠ [] ∧ uses_netloc.contains scheme = true
              ∧ ('/' :: p0 :: pt).take 2 ≠ ['/', '/']) := Or.inl hn
          have hc2 : netloc ≠ [] ∨ (scheme ≠ [] ∧ uses_netloc.contains scheme = true
              ∧ (p0 :: pt).take 2 ≠ ['/', '/']) := Or.inl hn
          rw [if_pos hc1, if_pos hc2,
            if_neg (fun hk : ('/' :: p0 :: pt ≠ [] ∧ ('/' :: p0 :: pt).head? ≠ some '/') =>
              hk.2 rfl),
            if_pos (⟨by simp, by simp [hp0]⟩ :
              p0 :: pt ≠ [] ∧ (p0 :: pt).head? ≠ some '/')]
        · have h3' : ('/' :: p0 :: pt).take 2 ≠ ['/', '/'] := by
            intro hk
            simp only [List.take_succ_cons, List.take_zero, List.cons.injEq] at hk
            exact hp0 hk.2.1
          have hc1 : netloc ≠ [] ∨ (scheme ≠ [] ∧ uses_netloc.contains scheme = true
              ∧ ('/' :: p0 :: pt).take 2 ≠ ['/', '/']) := Or.inr ⟨h1, h2, h3'⟩
          have hc2 : netloc ≠ [] ∨ (scheme ≠ [] ∧ uses_netloc.contains scheme = true
              ∧ (p0 :: pt).take 2 ≠ ['/', '/']) := Or.inr ⟨h1, h2, h3⟩
          rw [if_pos hc1, if_pos hc2,
            if_neg (fun hk : ('/' :: p0 :: pt ≠ [] ∧ ('/' :: p0 :: pt).head? ≠ some '/') =>
              hk.2 rfl),
            if_pos (⟨by simp, by simp [hp0]⟩ :
              p0 :: pt ≠ [] ∧ (p0 :: pt).head? ≠ some '/')]
  · have hnl : netloc = [] := by
      by_contra hne2
      exact hcnd (Or.inl hne2)
    have htk : path.take 2 ≠ ['/', '/'] := fun hk => hexc ⟨hnl, hk⟩
    refine ⟨path, hpne, ?_, rfl⟩
    rw [hunsplit path, if_neg hcnd, hnl]
    have hRtk : (path ++ (if query ≠ [] then '?' :: query else [])).take 2 ≠ ['/', '/'] := by
      rcases path with _ | ⟨p0, _ | ⟨p1, pt2⟩⟩
      · exact absurd rfl hpne
      · by_cases hq : query ≠ []
        · rw [if_pos hq]
          intro hk
          simp only [List.cons_append, List.nil_append, List.take_succ_cons,
            List.take_zero, List.cons.injEq] at hk
          exact absurd hk.2.1 (by decide)
        · rw [if_neg hq]
          intro hk
          simp at hk
      · intro hk
        apply htk
        simp only [List.cons_append, List.take_succ_cons, List.take_zero,
          List.cons.injEq] at hk ⊢
        exact ⟨hk.1, hk.2.1, trivial⟩
    refine urlparseL_reassemble scheme [] path query
      (path ++ (if query ≠ [] then '?' :: query else []))
      hshead hschars hslow ?_ (splitNetloc_nomarker _ hRtk) hph hpq hqh
      (fun hup _ => splitParamsL_stable (hparams hup))
    intro c hc
    rcases List.mem_append.mp hc with hc | hc
    · exact hpc c hc
    by_cases hq : query ≠ []
    · rw [if_pos hq] at hc
      rcases List.mem_cons.mp hc with rfl | hc
      · decide
      · exact hqc c hc
    · rw [if_neg hq] at hc
      simp at hc

theorem except_bind_ok (a : α) (f : α → Except ε β) : Except.bind (Except.ok a) f = f a :=
  rfl

theorem normalize_mk {w v : Str} (h : normalizeL w = Except.ok v) :
    normalize (String.mk w) = Except.ok (String.mk v) := by
  have hd : (String.mk w).data = w := rfl
  rw [normalize, hd, h]

/-- C7 (amended) — `normalize` is idempotent on every input whose parse
does not combine an empty authority with a path beginning `//`: if
`urlparse` succeeds on `u` with `netloc ≠ "" ∨ ¬path.startswith("//")`,
then feeding `normalize`'s output back through `normalize` returns it
unchanged.  (The excluded class is exactly the non-idempotent one:
CPython 3.11's `urlunsplit` omits the empty-authority marker there.) -/
theorem normalize_idempotent_on_ok (u : String) (p : UrlParts)
    (hp : urlparseL u.data = .ok p)
    (hcond : ¬(p.netloc = [] ∧ p.path.take 2 = ['/', '/'])) :
    (normalize u).bind normalize = normalize u := by
  obtain ⟨hsch, hnd0, hnc0, hbm0, hbh0, hpclean, hphash, hpq0, hpar0⟩ := urlparseL_ok_facts hp
  have hS : ∃ S : Str, (if p.scheme = [] then "https".data else p.scheme) = S ∧ S ≠ []
      ∧ headAlpha S = true ∧ S.all schemeCharC = true ∧ S.map lowerC = S := by
    by_cases hps : p.scheme = []
    · exact ⟨"https".data, by rw [if_pos hps], by decide, by decide, by decide, by decide⟩
    · rcases hsch with he | ⟨h1, h2, h3⟩
      · exact absurd he hps
      · exact ⟨p.scheme, by rw [if_neg hps], hps, h1, h2, h3⟩
  obtain ⟨S, hSeq, hSne, hShead, hSchars, hSlow⟩ := hS
  have hNd : ∀ c ∈ p.netloc.map lowerC, netlocDelim c = false := by
    intro c hc
    rcases List.mem_map.mp hc with ⟨c0, hc0, rfl⟩
    rw [netlocDelim_lowerC]
    exact hnd0 c0 hc0
  have hNc : ∀ c ∈ p.netloc.map lowerC, cleanCharC c = true := by
    intro c hc
    rcases List.mem_map.mp hc with ⟨c0, hc0, rfl⟩
    rw [cleanCharC_lowerC]
    exact hnc0 c0 hc0
  have hNbm : bracketMismatch (p.netloc.map lowerC) = false := by
    rw [bracketMismatch] at hbm0 ⊢
    rw [@contains_lowerC '[' (by decide), @contains_lowerC ']' (by decide)]
    exact hbm0
  have hNbh : ((p.netloc.map lowerC).contains '[' && (p.netloc.map lowerC).contains ']') = true →
      checkBracketedHost (bracketedHostOf (p.netloc.map lowerC)) = none := by
    intro hbr
    rw [@contains_lowerC '[' (by decide), @contains_lowerC ']' (by decide)] at hbr
    rw [bracketedHostOf_map_lowerC]
    exact checkBracketedHost_lowerC (hbh0 hbr)
  have hPne : (if p.path = [] then ['/'] else p.path) ≠ [] := by
    by_cases hpp : p.path = []
    · rw [if_pos hpp]
      simp
    · rw [if_neg hpp]
      exact hpp
  have hPc : ∀ c ∈ (if p.path = [] then ['/'] else p.path), cleanCharC c = true := by
    by_cases hpp : p.path = []
    · rw [if_pos hpp]
      intro c hc
      have hcs : c = '/' := List.mem_singleton.mp hc
      subst hcs
      decide
    · rw [if_neg hpp]
      exact hpclean
  have hPh : ∀ c ∈ (if p.path = [] then ['/'] else p.path), ¬(c = '#') := by
    by_cases hpp : p.path = []
    · rw [if_pos hpp]
      intro c hc
      have hcs : c = '/' := List.mem_singleton.mp hc
      subst hcs
      decide
    · rw [if_neg hpp]
      exact hphash
  have hPq : ∀ c ∈ (if p.path = [] then ['/'] else p.path), ¬(c = '?') := by
    by_cases hpp : p.path = []
    · rw [if_pos hpp]
      intro c hc
      have hcs : c = '/' := List.mem_singleton.mp hc
      subst hcs
      decide
    · rw [if_neg hpp]
      exact hpq0
  have hparamsP : uses_params.contains S = true →
      (∀ c ∈ (if p.path = [] then ['/'] else p.path), ¬(c = ';')) ∨
      ∃ a b, (if p.path = [] then ['/'] else p.path) = a ++ '/' :: b
        ∧ (∀ x ∈ b, ¬(x = '/')) ∧ (∀ x ∈ b, ¬(x = ';')) := by
    intro hup
    by_cases hpp : p.path = []
    · rw [if_pos hpp]
      left
      intro c hc
      have hcs : c = '/' := List.mem_singleton.mp hc
      subst hcs
      decide
    · rw [if_neg hpp]
      apply hpar0
      by_cases hps : p.scheme = []
      · rw [hps]
        decide
      · rw [show p.scheme = S from by rw [← hSeq, if_neg hps]]
        exact hup
  have hexcP : ¬(p.netloc.map lowerC = []
      ∧ (if p.path = [] then ['/'] else p.path).take 2 = ['/', '/']) := by
    rintro ⟨h1, h2⟩
    apply hcond
    refine ⟨List.map_eq_nil_iff.mp h1, ?_⟩
    by_cases hpp : p.path = []
    · rw [if_pos hpp] at h2
      exact absurd h2 (by decide)
    · rw [if_neg hpp] at h2
      exact h2
  obtain ⟨path2, hp2ne, hparse2, hser2⟩ := urlparseL_unsplit_core S (p.netloc.map lowerC)
    (if p.path = [] then ['/'] else p.path)
    (urlencodeL ((parseQsl p.query).filter (fun kv => !(TRACKING_PARAMS.contains kv.1))))
    hSne hShead hSchars hSlow hNd hNc hNbm hNbh hPne hPc hPh hPq
    (fun c hc => (urlencodeL_char_facts _ c hc).1)
    (fun c hc => (urlencodeL_char_facts _ c hc).2.1)
    hparamsP hexcP
  have hqrt : (parseQsl (urlencodeL ((parseQsl p.query).filter
        (fun kv => !(TRACKING_PARAMS.contains kv.1))))).filter
        (fun kv => !(TRACKING_PARAMS.contains kv.1))
      = (parseQsl p.query).filter (fun kv => !(TRACKING_PARAMS.contains kv.1)) := by
    rw [parseQsl_urlencode _
      (fun kv hkv => parseQsl_values_ne_nil p.query kv (List.mem_filter.mp hkv).1)]
    rw [List.filter_filter]
    simp only [Bool.and_self]
  have hnormu : normalizeL u.data = .ok (urlunsplitL S (p.netloc.map lowerC)
      (if p.path = [] then ['/'] else p.path)
      (urlencodeL ((parseQsl p.query).filter (fun kv => !(TRACKING_PARAMS.contains kv.1))))
      []) := by
    simp only [normalizeL, hp]
    rw [urlunparseL, if_neg (fun hk : ([] : Str) ≠ [] => hk rfl), hSeq]
  have hn2 : normalizeL (urlunsplitL S (p.netloc.map lowerC)
      (if p.path = [] then ['/'] else p.path)
      (urlencodeL ((parseQsl p.query).filter (fun kv => !(TRACKING_PARAMS.contains kv.1))))
      []) = .ok (urlunsplitL S (p.netloc.map lowerC)
      (if p.path = [] then ['/'] else p.path)
      (urlencodeL ((parseQsl p.query).filter (fun kv => !(TRACKING_PARAMS.contains kv.1))))
      []) := by
    simp only [normalizeL, hparse2]
    rw [if_neg hSne, map_lowerC_idem, if_neg hp2ne, hqrt, urlunparseL,
      if_neg (fun hk : ([] : Str) ≠ [] => hk rfl), hser2]
  have hn1 : normalize u = .ok (String.mk (urlunsplitL S (p.netloc.map lowerC)
      (if p.path = [] then ['/'] else p.path)
      (urlencodeL ((parseQsl p.query).filter (fun kv => !(TRACKING_PARAMS.contains kv.1))))
      [])) := by
    simp only [normalize, hnormu]
  rw [hn1, except_bind_ok]
  exact normalize_mk hn2

/-- C7 (amended, witness) — idempotence at a concrete in-class input. -/
theorem normalize_idempotent_on_ok_witness :
    (normalize "https://A.com/x?utm_source=f&q=1").bind normalize
      = normalize "https://A.com/x?utm_source=f&q=1" :=
  normalize_idempotent_on_ok "https://A.com/x?utm_source=f&q=1"
    ⟨"https".data, "A.com".data, "/x".data, [], "utm_source=f&q=1".data, []⟩
    (by decide) (by decide)

/-- C8 (amended, witness) — the characterization at a concrete
ASCII-authority input. -/
theorem normalize_ok_iff_ascii_witness :
    (∀ c ∈ netlocCandidate ("https://ex.com/a" : String).data, c.toNat < 128)
    ∧ (normalize "https://ex.com/a").isOk
      = (!bracketMismatch (netlocCandidate ("https://ex.com/a" : String).data)
        && (!((netlocCandidate ("https://ex.com/a" : String).data).contains '['
              && (netlocCandidate ("https://ex.com/a" : String).data).contains ']')
            || (checkBracketedHost (bracketedHostOf
                  (netlocCandidate ("https://ex.com/a" : String).data))).isNone)) :=
  ⟨by decide, normalize_ok_iff_ascii "https://ex.com/a" (by decide)⟩

end CM
